import Mathlib

/-!
Verification of the HTML comparison engine of `html-compare-rs` (src/lib.rs).

The engine consumes already-parsed DOM trees (parsing is an external
collaborator), so the embedding works on a tree type `Node` mirroring
`scraper::Node`, and embeds the comparison functions of `HtmlComparer`
(`compare`, `compare_element_refs`, `compare_attributes`,
`compare_ordered_nodes`, `compare_unordered_nodes`, `should_include_node`)
as executable Lean functions.  Rust `&str` becomes `String`, `str::trim`
becomes `rustTrim`, `HashSet` membership/equality becomes list
membership/mutual containment (set semantics), and every error is the
structured data the Rust code interpolates into its `NodeMismatch` message.
-/

namespace HtmlCompare

/-- Configuration for HTML comparison, mirroring `HtmlCompareOptions`
(src/lib.rs lines 130-144).  The `HashSet<String>` of ignored attribute
names is embedded as a list queried only through membership. -/
structure HtmlCompareOptions where
  ignore_whitespace : Bool
  ignore_attributes : Bool
  ignored_attributes : List String
  ignore_text : Bool
  ignore_comments : Bool
  ignore_sibling_order : Bool
deriving DecidableEq

/-- The `Default` instance of `HtmlCompareOptions` (src/lib.rs lines 146-157). -/
def defaultOptions : HtmlCompareOptions :=
  { ignore_whitespace := true
    ignore_attributes := false
    ignored_attributes := []
    ignore_text := false
    ignore_comments := true
    ignore_sibling_order := false }

/-- A parsed DOM node, mirroring `scraper::Node` as the engine consumes it:
node kind, tag name, attribute pairs, text/comment contents and children.
The payloads of the processing-instruction, doctype, document and fragment
variants are never inspected by the comparison engine (only their kind is,
via `node_type_name` and the match arms), so they are carried without data. -/
inductive Node where
  | text (contents : String)
  | element (tag : String) (attrs : List (String × String)) (children : List Node)
  | comment (contents : String)
  | processingInstruction
  | doctype
  | document
  | fragment

mutual

/-- Structural equality test for nodes (the derive handler does not support
the nested occurrence of `List Node`, so it is written out). -/
def Node.beq : Node → Node → Bool
  | .text s, .text t => s == t
  | .element t1 a1 c1, .element t2 a2 c2 => t1 == t2 && a1 == a2 && Node.beqList c1 c2
  | .comment s, .comment t => s == t
  | .processingInstruction, .processingInstruction => true
  | .doctype, .doctype => true
  | .document, .document => true
  | .fragment, .fragment => true
  | _, _ => false

/-- Structural equality test for lists of nodes. -/
def Node.beqList : List Node → List Node → Bool
  | [], [] => true
  | n :: ns, m :: ms => Node.beq n m && Node.beqList ns ms
  | _, _ => false

end

mutual

theorem Node.beq_iff : ∀ a b : Node, Node.beq a b = true ↔ a = b
  | .text s, .text t => by simp [Node.beq]
  | .element t1 a1 c1, .element t2 a2 c2 => by
    simp [Node.beq, Node.beqList_iff c1 c2, and_assoc]
  | .comment s, .comment t => by simp [Node.beq]
  | .processingInstruction, .processingInstruction => by simp [Node.beq]
  | .doctype, .doctype => by simp [Node.beq]
  | .document, .document => by simp [Node.beq]
  | .fragment, .fragment => by simp [Node.beq]
  | .text s, .element _ _ _ | .text s, .comment _ | .text s, .processingInstruction
  | .text s, .doctype | .text s, .document | .text s, .fragment =>
    by simp [Node.beq]
  | .element _ _ _, .text _ | .element _ _ _, .comment _
  | .element _ _ _, .processingInstruction | .element _ _ _, .doctype
  | .element _ _ _, .document | .element _ _ _, .fragment => by simp [Node.beq]
  | .comment _, .text _ | .comment _, .element _ _ _ | .comment _, .processingInstruction
  | .comment _, .doctype | .comment _, .document | .comment _, .fragment =>
    by simp [Node.beq]
  | .processingInstruction, .text _ | .processingInstruction, .element _ _ _
  | .processingInstruction, .comment _ | .processingInstruction, .doctype
  | .processingInstruction, .document | .processingInstruction, .fragment =>
    by simp [Node.beq]
  | .doctype, .text _ | .doctype, .element _ _ _ | .doctype, .comment _
  | .doctype, .processingInstruction | .doctype, .document | .doctype, .fragment =>
    by simp [Node.beq]
  | .document, .text _ | .document, .element _ _ _ | .document, .comment _
  | .document, .processingInstruction | .document, .doctype | .document, .fragment =>
    by simp [Node.beq]
  | .fragment, .text _ | .fragment, .element _ _ _ | .fragment, .comment _
  | .fragment, .processingInstruction | .fragment, .doctype | .fragment, .document =>
    by simp [Node.beq]

theorem Node.beqList_iff : ∀ l1 l2 : List Node, Node.beqList l1 l2 = true ↔ l1 = l2
  | [], [] => by simp [Node.beqList]
  | n :: ns, m :: ms => by
    simp [Node.beqList, Node.beq_iff n m, Node.beqList_iff ns ms]
  | [], _ :: _ => by simp [Node.beqList]
  | _ :: _, [] => by simp [Node.beqList]

end

instance : DecidableEq Node := fun a b => decidable_of_iff _ (Node.beq_iff a b)

/-- The kind name of a node as `node_type_name` renders it
(src/lib.rs lines 159-169). -/
def node_type_name : Node → String
  | .text _ => "Text"
  | .element _ _ _ => "Element"
  | .comment _ => "Comment"
  | .processingInstruction => "ProcessingInstruction"
  | .doctype => "Doctype"
  | .document => "Document"
  | .fragment => "Fragment"

/-- The structured content of a comparison failure.  In the Rust code every
variant below is a `HtmlCompareError::NodeMismatch(msg)` whose message is
built with `format!`; each constructor carries exactly the values the
corresponding `format!` call interpolates.  (The `MissingNode` and
`ExtraNode` variants of the Rust enum are never constructed by the engine.) -/
inductive HtmlCompareError where
  | tagNameMismatch (expected actual : String)
  | attributesMismatch (expected actual : List (String × String))
  | childCountMismatch (expected actual : Nat)
  | textContentMismatch (position : Nat) (expected actual : String)
  | commentContentMismatch (position : Nat) (expected actual : String)
  | nodeTypeMismatch (position : Nat) (expected actual : String)
  | noMatchingNode (expected : Node)
deriving DecidableEq

/-- Rust's `str::trim`: drop leading and trailing whitespace characters.
Written over the character list (rather than through `String.trim`) so that
it evaluates inside the kernel; `Char.isWhitespace` covers the ASCII
whitespace characters, the fragment of Unicode `White_Space` the claims and
tests exercise. -/
def rustTrim (s : String) : String :=
  String.mk (((s.data.dropWhile Char.isWhitespace).reverse.dropWhile
    Char.isWhitespace).reverse)

/-- Whether a node participates in comparison, mirroring
`should_include_node` (src/lib.rs lines 417-426). -/
def should_include_node (o : HtmlCompareOptions) (n : Node) : Bool :=
  match n with
  | .text t => !o.ignore_text && (!o.ignore_whitespace || !(rustTrim t).isEmpty)
  | .comment _ => !o.ignore_comments
  | _ => true

/-- The attribute pairs of one element that take part in comparison:
`attrs().filter(|(name, _)| !ignored_attributes.contains(name))`
(src/lib.rs lines 258-267). -/
def filteredAttrs (o : HtmlCompareOptions) (attrs : List (String × String)) :
    List (String × String) :=
  attrs.filter (fun p => !o.ignored_attributes.contains p.1)

/-- Equality of the two filtered attribute collections as sets (the Rust code
compares two `HashSet<(&str, &str)>` values): mutual containment, so order
and duplicates are irrelevant. -/
def attrSetEq (xs ys : List (String × String)) : Bool :=
  xs.all (fun p => ys.contains p) && ys.all (fun p => xs.contains p)

/-- Attribute comparison, mirroring `compare_attributes`
(src/lib.rs lines 253-276): build both filtered sets, succeed iff they are
equal as sets, otherwise report both sets. -/
def compare_attributes (o : HtmlCompareOptions)
    (expectedAttrs actualAttrs : List (String × String)) :
    Except HtmlCompareError Unit :=
  let ea := filteredAttrs o expectedAttrs
  let aa := filteredAttrs o actualAttrs
  if attrSetEq ea aa then .ok ()
  else .error (.attributesMismatch ea aa)

mutual

/-- Size of a node (1 plus the sizes of an element's children); used only as
the termination measure of the mutually recursive comparison functions. -/
def nodeSize : Node → Nat
  | .text _ => 1
  | .element _ _ children => 1 + nodesSize children
  | .comment _ => 1
  | .processingInstruction => 1
  | .doctype => 1
  | .document => 1
  | .fragment => 1

/-- Total size of a list of nodes. -/
def nodesSize : List Node → Nat
  | [] => 0
  | n :: ns => nodeSize n + nodesSize ns

end

@[simp] theorem nodesSize_nil : nodesSize [] = 0 := by simp [nodesSize]

@[simp] theorem nodesSize_cons (n : Node) (ns : List Node) :
    nodesSize (n :: ns) = nodeSize n + nodesSize ns := by simp [nodesSize]

@[simp] theorem nodeSize_element (t : String) (a : List (String × String))
    (c : List Node) : nodeSize (.element t a c) = 1 + nodesSize c := by simp [nodeSize]

theorem nodeSize_pos (n : Node) : 1 ≤ nodeSize n := by
  cases n <;> simp [nodeSize]

theorem nodesSize_filter_le (p : Node → Bool) (l : List Node) :
    nodesSize (l.filter p) ≤ nodesSize l := by
  induction l with
  | nil => simp
  | cons n ns ih =>
    by_cases h : p n = true <;> simp [List.filter_cons, h] <;> omega

mutual

/-- Comparison of two elements, mirroring `compare_element_refs`
(src/lib.rs lines 214-250): tag names must match, then attributes (unless
ignored), then the inclusion-filtered child lists are compared in ordered or
unordered mode according to `ignore_sibling_order`.  An `ElementRef` is its
tag name, attribute list and child list, passed as three arguments per side. -/
def compare_element_refs (o : HtmlCompareOptions)
    (expectedTag : String) (expectedAttrs : List (String × String))
    (expectedChildren : List Node)
    (actualTag : String) (actualAttrs : List (String × String))
    (actualChildren : List Node) : Except HtmlCompareError Unit :=
  if expectedTag ≠ actualTag then
    .error (.tagNameMismatch expectedTag actualTag)
  else
    match (if !o.ignore_attributes then compare_attributes o expectedAttrs actualAttrs
           else .ok ()) with
    | .error e => .error e
    | .ok _ =>
      let ec := expectedChildren.filter (should_include_node o)
      let ac := actualChildren.filter (should_include_node o)
      if o.ignore_sibling_order then
        compare_unordered_nodes o ec ac
      else
        compare_ordered_nodes o ec ac
termination_by 5 * (nodesSize expectedChildren + nodesSize actualChildren) + 4
decreasing_by
  all_goals
    have h1 := nodesSize_filter_le (should_include_node o) expectedChildren
    have h2 := nodesSize_filter_le (should_include_node o) actualChildren
    omega

/-- Ordered child comparison, mirroring `compare_ordered_nodes`
(src/lib.rs lines 279-352): equal-count precondition, then the position-wise
walk performed by `compare_ordered_go`. -/
def compare_ordered_nodes (o : HtmlCompareOptions) (expected actual : List Node) :
    Except HtmlCompareError Unit :=
  if expected.length ≠ actual.length then
    .error (.childCountMismatch expected.length actual.length)
  else
    compare_ordered_go o 0 expected actual
termination_by 5 * (nodesSize expected + nodesSize actual) + 3
decreasing_by
  all_goals omega

/-- The `for (i, (expected_child, actual_child)) in zip(...).enumerate()` loop
of `compare_ordered_nodes` (src/lib.rs lines 292-350), with `i` the position
carried into the mismatch reports.  Like `zip`, the walk stops when either
list is exhausted (the caller has already checked equal lengths). -/
def compare_ordered_go (o : HtmlCompareOptions) (i : Nat) :
    List Node → List Node → Except HtmlCompareError Unit
  | e :: es, a :: as =>
    match e, a with
    | .text expected_text, .text actual_text =>
      if !o.ignore_text then
        let expected_str := if o.ignore_whitespace then rustTrim expected_text
                            else expected_text
        let actual_str := if o.ignore_whitespace then rustTrim actual_text
                          else actual_text
        if expected_str ≠ actual_str then
          .error (.textContentMismatch i expected_str actual_str)
        else
          compare_ordered_go o (i + 1) es as
      else
        compare_ordered_go o (i + 1) es as
    | .comment expected_comment, .comment actual_comment =>
      if !o.ignore_comments then
        if rustTrim expected_comment ≠ rustTrim actual_comment then
          .error (.commentContentMismatch i (rustTrim expected_comment)
            (rustTrim actual_comment))
        else
          compare_ordered_go o (i + 1) es as
      else
        compare_ordered_go o (i + 1) es as
    | .element etag eattrs echildren, .element atag aattrs achildren =>
      match compare_element_refs o etag eattrs echildren atag aattrs achildren with
      | .error err => .error err
      | .ok _ => compare_ordered_go o (i + 1) es as
    | _, _ => .error (.nodeTypeMismatch i (node_type_name e) (node_type_name a))
  | _, _ => .ok ()
termination_by es as => 5 * (nodesSize es + nodesSize as) + 2
decreasing_by
  all_goals simp only [nodesSize_cons, nodeSize_element, nodeSize] <;> omega

/-- Unordered child comparison, mirroring `compare_unordered_nodes`
(src/lib.rs lines 354-414): equal-count precondition, then greedy first-fit
matching over a `matched` flag array initialised to all-false. -/
def compare_unordered_nodes (o : HtmlCompareOptions) (expected actual : List Node) :
    Except HtmlCompareError Unit :=
  if expected.length ≠ actual.length then
    .error (.childCountMismatch expected.length actual.length)
  else
    compare_unordered_go o expected actual (List.replicate actual.length false)
termination_by 5 * (nodesSize expected + nodesSize actual) + 3
decreasing_by
  all_goals omega

/-- The outer `for expected_child in expected` loop of
`compare_unordered_nodes` (src/lib.rs lines 369-412): each expected child is
matched by `find_unordered_match`; when no actual child satisfies it, the
no-matching-node report names that expected child. -/
def compare_unordered_go (o : HtmlCompareOptions) :
    List Node → List Node → List Bool → Except HtmlCompareError Unit
  | [], _, _ => .ok ()
  | e :: es, actual, matched =>
    match find_unordered_match o e actual matched with
    | some matchedNext => compare_unordered_go o es actual matchedNext
    | none => .error (.noMatchingNode e)
termination_by es actual matched => 5 * (nodesSize es + nodesSize actual) + 2
decreasing_by
  all_goals simp only [nodesSize_cons]
  all_goals
    have he := nodeSize_pos e
    omega

/-- The inner `for (i, actual_child) in actual.iter().enumerate()` loop of
`compare_unordered_nodes` (src/lib.rs lines 371-405): scan the actual
children left to right in step with their `matched` flags; the first
unmatched child satisfying the match arms is marked matched (`some` of the
updated flags), and `none` means no unmatched child satisfies. -/
def find_unordered_match (o : HtmlCompareOptions) (e : Node) :
    List Node → List Bool → Option (List Bool)
  | a :: as, m :: ms =>
    if !m && nodes_match o e a then
      some (true :: ms)
    else
      match find_unordered_match o e as ms with
      | some msNext => some (m :: msNext)
      | none => none
  | _, _ => none
termination_by as ms => 5 * (nodeSize e + nodesSize as) + 1
decreasing_by
  all_goals simp only [nodesSize_cons]
  all_goals
    have ha := nodeSize_pos a
    omega

/-- The match arms of the inner loop of `compare_unordered_nodes`
(src/lib.rs lines 373-403): text/text under the text-equality rule,
element/element when the full recursive element comparison succeeds,
comment/comment only when `ignore_comments` is set, nothing else. -/
def nodes_match (o : HtmlCompareOptions) (e a : Node) : Bool :=
  match e, a with
  | .text expected_text, .text actual_text =>
    o.ignore_text || (!o.ignore_whitespace && expected_text == actual_text)
      || (o.ignore_whitespace && rustTrim expected_text == rustTrim actual_text)
  | .element etag eattrs echildren, .element atag aattrs achildren =>
    match compare_element_refs o etag eattrs echildren atag aattrs achildren with
    | .ok _ => true
    | .error _ => false
  | .comment _, .comment _ => o.ignore_comments
  | _, _ => false
termination_by 5 * (nodeSize e + nodeSize a)
decreasing_by
  all_goals simp only [nodeSize_element] <;> omega

end

/-- A root element as `Html::parse_document(..).root_element()` yields it:
the parser (an external collaborator) always produces an element here, so the
public entry point consumes its tag, attributes and children directly. -/
structure ElementNode where
  tag : String
  attrs : List (String × String)
  children : List Node
deriving DecidableEq

/-- The public entry point, mirroring `HtmlComparer::compare`
(src/lib.rs lines 202-211) after the external parse of both input strings:
delegate to `compare_element_refs` on the two root elements and map success
to `true`. -/
def compare (o : HtmlCompareOptions) (expected actual : ElementNode) :
    Except HtmlCompareError Bool :=
  (compare_element_refs o expected.tag expected.attrs expected.children
      actual.tag actual.attrs actual.children).map (fun _ => true)

/-! ## Basic lemmas about the embedding -/

/-- Whether a comparison step succeeded (Rust `Result::is_ok`). -/
def resultOk {α : Type} (r : Except HtmlCompareError α) : Bool :=
  match r with
  | .ok _ => true
  | .error _ => false

@[simp] theorem resultOk_ok {α : Type} (x : α) :
    resultOk (.ok x : Except HtmlCompareError α) = true := rfl

@[simp] theorem resultOk_error {α : Type} (e : HtmlCompareError) :
    resultOk (.error e : Except HtmlCompareError α) = false := rfl

theorem resultOk_iff_eq_ok (r : Except HtmlCompareError Unit) :
    resultOk r = true ↔ r = .ok () := by
  cases r with
  | ok u => cases u; simp
  | error e => simp

theorem attrSetEq_iff (xs ys : List (String × String)) :
    attrSetEq xs ys = true ↔ ∀ p : String × String, p ∈ xs ↔ p ∈ ys := by
  simp only [attrSetEq, Bool.and_eq_true, List.all_eq_true, List.contains]
  constructor
  · rintro ⟨h1, h2⟩ p
    exact ⟨fun hp => List.elem_iff.mp (h1 p hp), fun hp => List.elem_iff.mp (h2 p hp)⟩
  · intro h
    exact ⟨fun p hp => List.elem_iff.mpr ((h p).mp hp),
           fun p hp => List.elem_iff.mpr ((h p).mpr hp)⟩

theorem attrSetEq_refl (xs : List (String × String)) : attrSetEq xs xs = true := by
  rw [attrSetEq_iff]; intro p; rfl

theorem attrSetEq_symm (xs ys : List (String × String)) :
    attrSetEq xs ys = attrSetEq ys xs := by
  by_cases h : attrSetEq xs ys = true
  · have h2 := (attrSetEq_iff ys xs).mpr (fun p => ((attrSetEq_iff xs ys).mp h p).symm)
    rw [h, h2]
  · have h2 : ¬ attrSetEq ys xs = true := fun hc =>
      h ((attrSetEq_iff xs ys).mpr (fun p => ((attrSetEq_iff ys xs).mp hc p).symm))
    simp only [Bool.not_eq_true] at h h2
    rw [h, h2]

theorem attrSetEq_trans {xs ys zs : List (String × String)}
    (h1 : attrSetEq xs ys = true) (h2 : attrSetEq ys zs = true) :
    attrSetEq xs zs = true := by
  rw [attrSetEq_iff] at h1 h2 ⊢
  intro p
  exact (h1 p).trans (h2 p)

theorem compare_attributes_ok_iff (o : HtmlCompareOptions)
    (ea aa : List (String × String)) :
    compare_attributes o ea aa = .ok () ↔
      attrSetEq (filteredAttrs o ea) (filteredAttrs o aa) = true := by
  by_cases h : attrSetEq (filteredAttrs o ea) (filteredAttrs o aa) = true <;>
    simp [compare_attributes, h]

theorem compare_attributes_error (o : HtmlCompareOptions)
    (ea aa : List (String × String))
    (h : attrSetEq (filteredAttrs o ea) (filteredAttrs o aa) = false) :
    compare_attributes o ea aa =
      .error (.attributesMismatch (filteredAttrs o ea) (filteredAttrs o aa)) := by
  simp [compare_attributes, h]

/-! ## A removal-based view of the greedy matcher

`compare_unordered_nodes` walks a fixed `actual` array with a `matched` flag
per slot.  For reasoning, the loop is restated over the list of still
unmatched actual children: finding the first unmatched satisfying child and
flagging it is finding and removing the first satisfying element of that
list.  The two views are proved to coincide. -/

/-- The actual children whose `matched` flag is still false, in order. -/
def unmatchedOf : List Node → List Bool → List Node
  | a :: as, m :: ms => if m then unmatchedOf as ms else a :: unmatchedOf as ms
  | _, _ => []

/-- Remove the first element satisfying `p`, keeping the rest in order. -/
def extractFirst (p : Node → Bool) : List Node → Option (List Node)
  | [] => none
  | a :: as => if p a then some as else (extractFirst p as).map (a :: ·)

/-- The greedy first-fit matcher over the list of remaining actual
children: each expected child consumes the first remaining child it
matches; `false` when some expected child matches none. -/
def greedyR (o : HtmlCompareOptions) : List Node → List Node → Bool
  | [], _ => true
  | e :: es, rem =>
    match extractFirst (fun a => nodes_match o e a) rem with
    | some remNext => greedyR o es remNext
    | none => false

@[simp] theorem unmatchedOf_nil_left (ms : List Bool) : unmatchedOf [] ms = [] := by
  cases ms <;> simp [unmatchedOf]

@[simp] theorem unmatchedOf_nil_right (as : List Node) : unmatchedOf as [] = [] := by
  cases as <;> simp [unmatchedOf]

theorem unmatchedOf_replicate_false (as : List Node) :
    unmatchedOf as (List.replicate as.length false) = as := by
  induction as with
  | nil => simp
  | cons a as ih => simp [List.replicate, unmatchedOf, ih]

/-- One inner-loop search coincides with removing the first satisfying
element from the unmatched sublist, and it preserves the flag count. -/
theorem find_unordered_match_eq (o : HtmlCompareOptions) (e : Node) :
    ∀ (as : List Node) (ms : List Bool), ms.length = as.length →
      ((find_unordered_match o e as ms).map (unmatchedOf as) =
        extractFirst (fun a => nodes_match o e a) (unmatchedOf as ms)) ∧
      (∀ msNext, find_unordered_match o e as ms = some msNext →
        msNext.length = as.length) := by
  intro as
  induction as with
  | nil =>
    intro ms h
    have : ms = [] := List.length_eq_zero.mp h
    subst this
    simp [find_unordered_match, extractFirst]
  | cons a as ih =>
    intro ms h
    match ms, h with
    | m :: ms, h =>
      have hlen : ms.length = as.length := by simpa using h
      obtain ⟨ih1, ih2⟩ := ih ms hlen
      cases m with
      | true =>
        simp only [find_unordered_match, Bool.not_true, Bool.false_and, if_neg
          (by simp : ¬ (false && nodes_match o e a) = true)]
        constructor
        · simp only [unmatchedOf, if_pos rfl]
          cases hf : find_unordered_match o e as ms with
          | none => simpa [hf] using ih1
          | some msNext =>
            simp only [hf, Option.map_some] at ih1 ⊢
            simpa [unmatchedOf] using ih1
        · intro msNext hf
          cases hf2 : find_unordered_match o e as ms with
          | none => simp [hf2] at hf
          | some msMid =>
            simp only [hf2] at hf
            cases hf
            simpa using ih2 msMid hf2
      | false =>
        by_cases hm : nodes_match o e a = true
        · simp only [find_unordered_match, Bool.not_false, Bool.true_and, hm, if_pos rfl]
          constructor
          · simp [unmatchedOf, extractFirst, hm]
          · intro msNext hf
            cases hf
            simpa using hlen
        · have hm2 : nodes_match o e a = false := by simpa using hm
          constructor
          · cases hf : find_unordered_match o e as ms with
            | none =>
              rw [hf] at ih1
              simp at ih1
              simp [find_unordered_match, hm2, hf, unmatchedOf, extractFirst, ← ih1]
            | some msNext =>
              rw [hf] at ih1
              simp at ih1
              simp [find_unordered_match, hm2, hf, unmatchedOf, extractFirst, ← ih1]
          · intro msNext hf
            rw [find_unordered_match] at hf
            simp only [hm2, Bool.and_false, Bool.not_false, Bool.true_and,
              if_neg (Bool.false_ne_true)] at hf
            cases hf2 : find_unordered_match o e as ms with
            | none => rw [hf2] at hf; simp at hf
            | some msMid =>
              rw [hf2] at hf
              simp only at hf
              cases hf
              simpa using ih2 msMid hf2

/-- The outer loop over `matched` flags computes exactly the removal-based
greedy matcher on the unmatched sublist. -/
theorem compare_unordered_go_eq_greedyR (o : HtmlCompareOptions) :
    ∀ (es as : List Node) (ms : List Bool), ms.length = as.length →
      resultOk (compare_unordered_go o es as ms) =
        greedyR o es (unmatchedOf as ms) := by
  intro es
  induction es with
  | nil => intro as ms _; simp [compare_unordered_go, greedyR]
  | cons e es ih =>
    intro as ms h
    obtain ⟨h1, h2⟩ := find_unordered_match_eq o e as ms h
    cases hf : find_unordered_match o e as ms with
    | none =>
      simp only [hf, Option.map_none] at h1
      simp [compare_unordered_go, hf, greedyR, ← h1]
    | some msNext =>
      simp only [hf, Option.map_some] at h1
      simp [compare_unordered_go, hf, greedyR, ← h1, ih as msNext (h2 msNext hf)]

theorem compare_unordered_nodes_resultOk (o : HtmlCompareOptions)
    (es as : List Node) (h : es.length = as.length) :
    resultOk (compare_unordered_nodes o es as) = greedyR o es as := by
  have := compare_unordered_go_eq_greedyR o es as
    (List.replicate as.length false) (by simp)
  rw [unmatchedOf_replicate_false] at this
  simp [compare_unordered_nodes, h, this]

/-! ## Perfect matchings and the greedy matcher

A perfect matching between the expected children and the actual children
under the per-pair relation `nodes_match` is a permutation of the actual
list aligned pairwise with the expected list. -/

/-- There is a perfect matching of `es` against `as` under `nodes_match`. -/
def HasPerfectMatching (o : HtmlCompareOptions) (es as : List Node) : Prop :=
  ∃ perm : List Node, perm.Perm as ∧
    List.Forall₂ (fun e a => nodes_match o e a = true) es perm

theorem extractFirst_none_iff (p : Node → Bool) :
    ∀ l : List Node, extractFirst p l = none ↔ ∀ a ∈ l, p a = false := by
  intro l
  induction l with
  | nil => simp [extractFirst]
  | cons a as ih =>
    by_cases h : p a = true
    · simp [extractFirst, h]
    · have h2 : p a = false := by simpa using h
      simp [extractFirst, h2, Option.map_eq_none', ih]

theorem extractFirst_some (p : Node → Bool) :
    ∀ (l r : List Node), extractFirst p l = some r →
      ∃ l1 a l2, l = l1 ++ a :: l2 ∧ r = l1 ++ l2 ∧ p a = true ∧
        ∀ x ∈ l1, p x = false := by
  intro l
  induction l with
  | nil => intro r h; cases h
  | cons a as ih =>
    intro r h
    by_cases hp : p a = true
    · simp only [extractFirst, hp, if_pos rfl] at h
      cases h
      exact ⟨[], a, as, by simp, by simp, hp, by simp⟩
    · have hp2 : p a = false := by simpa using hp
      simp only [extractFirst, hp2, Bool.false_eq_true, if_false] at h
      rw [Option.map_eq_some'] at h
      obtain ⟨r2, hf, hcons⟩ := h
      subst hcons
      obtain ⟨l1, b, l2, hsplit, hrest, hpb, hfalse⟩ := ih r2 hf
      refine ⟨a :: l1, b, l2, by simp [hsplit], by simp [hrest], hpb, ?_⟩
      intro x hx
      rcases List.mem_cons.mp hx with hx | hx
      · subst hx; exact hp2
      · exact hfalse x hx

/-- Remaining length after one extraction. -/
theorem extractFirst_length (p : Node → Bool) (l r : List Node)
    (h : extractFirst p l = some r) : l.length = r.length + 1 := by
  obtain ⟨l1, a, l2, hsplit, hrest, _, _⟩ := extractFirst_some p l r h
  subst hsplit; subst hrest
  simp; omega

/-- Soundness of greedy matching: a successful greedy run of equal-length
lists exhibits a perfect matching. -/
theorem greedyR_sound (o : HtmlCompareOptions) :
    ∀ es rem : List Node, es.length = rem.length →
      greedyR o es rem = true → HasPerfectMatching o es rem := by
  intro es
  induction es with
  | nil =>
    intro rem hlen _
    have : rem = [] := List.length_eq_zero.mp hlen.symm
    subst this
    exact ⟨[], List.Perm.refl [], List.Forall₂.nil⟩
  | cons e es ih =>
    intro rem hlen hg
    rw [greedyR] at hg
    cases hf : extractFirst (fun a => nodes_match o e a) rem with
    | none => rw [hf] at hg; cases hg
    | some r =>
      rw [hf] at hg
      have hlen2 : es.length = r.length := by
        have := extractFirst_length _ rem r hf
        simp at hlen
        omega
      obtain ⟨perm, hperm, hfa⟩ := ih r hlen2 hg
      obtain ⟨l1, a0, l2, hsplit, hrest, hpa, _⟩ := extractFirst_some _ rem r hf
      refine ⟨a0 :: perm, ?_, List.Forall₂.cons hpa hfa⟩
      subst hsplit; subst hrest
      exact (hperm.cons a0).trans List.perm_middle.symm

/-- Splitting a `Forall₂` along a split of its right-hand list. -/
theorem forall₂_right_split {R : Node → Node → Prop} :
    ∀ {es r1 : List Node} {b : Node} {r2 : List Node},
      List.Forall₂ R es (r1 ++ b :: r2) →
      ∃ x1 e1 x2, es = x1 ++ e1 :: x2 ∧ List.Forall₂ R x1 r1 ∧ R e1 b ∧
        List.Forall₂ R x2 r2 := by
  intro es r1
  induction r1 generalizing es with
  | nil =>
    intro b r2 h
    simp only [List.nil_append] at h
    cases h with
    | cons hb htail =>
      exact ⟨[], _, _, by simp, List.Forall₂.nil, hb, htail⟩
  | cons c r1 ih =>
    intro b r2 h
    simp only [List.cons_append] at h
    cases h with
    | cons hc htail =>
      obtain ⟨x1, e1, x2, hsplit, h1, hb, h2⟩ := ih htail
      exact ⟨_ :: x1, e1, x2, by simp [hsplit], List.Forall₂.cons hc h1, hb, h2⟩

/-- Transporting a `Forall₂` along a permutation of its left-hand list. -/
theorem forall₂_perm_left {R : Node → Node → Prop} :
    ∀ {l1 l1' l2 : List Node}, l1.Perm l1' → List.Forall₂ R l1 l2 →
      ∃ l2', l2.Perm l2' ∧ List.Forall₂ R l1' l2' := by
  intro l1 l1' l2 hperm
  induction hperm generalizing l2 with
  | nil =>
    intro h
    rw [List.forall₂_nil_left_iff] at h
    subst h
    exact ⟨[], List.Perm.refl [], List.Forall₂.nil⟩
  | cons x p ih =>
    intro h
    cases h with
    | cons hx htail =>
      obtain ⟨l2', hp, hf⟩ := ih htail
      exact ⟨_ :: l2', hp.cons _, List.Forall₂.cons hx hf⟩
  | swap x y l =>
    intro h
    cases h with
    | cons hy htail =>
      cases htail with
      | cons hx htail2 =>
        exact ⟨_ :: _ :: _, List.Perm.swap _ _ _, List.Forall₂.cons hx
          (List.Forall₂.cons hy htail2)⟩
  | trans p1 p2 ih1 ih2 =>
    intro h
    obtain ⟨l2a, hpa, hfa⟩ := ih1 h
    obtain ⟨l2b, hpb, hfb⟩ := ih2 hfa
    exact ⟨l2b, hpa.trans hpb, hfb⟩

/-- Completeness of greedy first-fit matching for a per-pair relation that is
symmetric and transitive on the nodes involved (as `nodes_match` is proved to
be below): whenever some perfect matching exists, the greedy run succeeds.
This is the classical exchange argument — if greedy consumes a child the
matching had assigned elsewhere, the matching can be repaired by swapping the
two assignments, which stays valid by symmetry and transitivity. -/
theorem greedyR_complete (o : HtmlCompareOptions) :
    ∀ es rem : List Node,
      (∀ x ∈ es ++ rem, ∀ y ∈ es ++ rem, nodes_match o x y = nodes_match o y x) →
      (∀ x y z, x ∈ es ++ rem → y ∈ es ++ rem → z ∈ es ++ rem →
        nodes_match o x y = true → nodes_match o y z = true →
        nodes_match o x z = true) →
      HasPerfectMatching o es rem → greedyR o es rem = true := by
  intro es
  induction es with
  | nil => intro rem _ _ _; simp [greedyR]
  | cons e es ih =>
    intro rem hsym htrans hm
    obtain ⟨perm, hperm, hfa⟩ := hm
    cases hfa with
    | cons hstar htail =>
      rename_i astar rest
      have hstar_mem : astar ∈ rem := (hperm.mem_iff).mp (by simp)
      rw [greedyR]
      cases hx : extractFirst (fun a => nodes_match o e a) rem with
      | none =>
        have := (extractFirst_none_iff _ rem).mp hx astar hstar_mem
        rw [hstar] at this
        cases this
      | some r =>
        simp only
        obtain ⟨l1, a0, l2, hsplit, hrest, hpa0, _⟩ := extractFirst_some _ rem r hx
        have ha0_mem : a0 ∈ rem := by simp [hsplit]
        have hsub : ∀ x, x ∈ es ++ r → x ∈ (e :: es) ++ rem := by
          intro x hcx
          subst hsplit; subst hrest
          simp only [List.mem_append, List.mem_cons] at hcx ⊢
          tauto
        have hsym2 : ∀ x ∈ es ++ r, ∀ y ∈ es ++ r,
            nodes_match o x y = nodes_match o y x :=
          fun x hcx y hcy => hsym x (hsub x hcx) y (hsub y hcy)
        have htrans2 : ∀ x y z, x ∈ es ++ r → y ∈ es ++ r → z ∈ es ++ r →
            nodes_match o x y = true → nodes_match o y z = true →
            nodes_match o x z = true :=
          fun x y z hcx hcy hcz => htrans x y z (hsub x hcx) (hsub y hcy) (hsub z hcz)
        have hAperm : (astar :: rest).Perm (a0 :: r) := by
          subst hsplit; subst hrest
          exact hperm.trans List.perm_middle
        have ha0_in : a0 ∈ astar :: rest := (hAperm.mem_iff).mpr (by simp)
        rcases List.mem_cons.mp ha0_in with heq | hin
        · subst heq
          exact ih r hsym2 htrans2 ⟨rest, hAperm.cons_inv, htail⟩
        · obtain ⟨r1, r2, hrsplit⟩ := List.append_of_mem hin
          subst hrsplit
          obtain ⟨x1, e1, x2, hesplit, hf1, hf1a0, hf2⟩ := forall₂_right_split htail
          have he1_mem : e1 ∈ (e :: es) ++ rem := by simp [hesplit]
          have hmem_e : e ∈ (e :: es) ++ rem := by simp
          have hmem_a0 : a0 ∈ (e :: es) ++ rem := by simp [ha0_mem]
          have hmem_astar : astar ∈ (e :: es) ++ rem := by simp [hstar_mem]
          have ha0e : nodes_match o a0 e = true := by
            rw [hsym a0 hmem_a0 e hmem_e]; exact hpa0
          have ha0astar : nodes_match o a0 astar = true :=
            htrans a0 e astar hmem_a0 hmem_e hmem_astar ha0e hstar
          have he1astar : nodes_match o e1 astar = true :=
            htrans e1 a0 astar he1_mem hmem_a0 hmem_astar hf1a0 ha0astar
          have hforall : List.Forall₂ (fun x a => nodes_match o x a = true)
              (x1 ++ e1 :: x2) (r1 ++ astar :: r2) :=
            List.rel_append hf1 (List.Forall₂.cons he1astar hf2)
          have hpermr : (r1 ++ astar :: r2).Perm r := by
            have hA : (astar :: (r1 ++ a0 :: r2)).Perm (a0 :: r) := hAperm
            have hC : (astar :: (r1 ++ a0 :: r2)).Perm
                (astar :: a0 :: (r1 ++ r2)) := List.perm_middle.cons astar
            have hD : (astar :: a0 :: (r1 ++ r2)).Perm
                (a0 :: astar :: (r1 ++ r2)) := List.Perm.swap a0 astar _
            have hF : r.Perm (astar :: (r1 ++ r2)) :=
              (hA.symm.trans (hC.trans hD)).cons_inv
            exact List.perm_middle.trans hF.symm
          exact ih r hsym2 htrans2 ⟨r1 ++ astar :: r2, hpermr, hesplit ▸ hforall⟩

/-- Pointwise strengthening of a `Forall₂` using memberships. -/
theorem forall₂_imp_mem {R S : Node → Node → Prop} :
    ∀ {l1 l2 : List Node}, (∀ x ∈ l1, ∀ y ∈ l2, R x y → S x y) →
      List.Forall₂ R l1 l2 → List.Forall₂ S l1 l2 := by
  intro l1 l2 himp h
  induction h with
  | nil => exact List.Forall₂.nil
  | cons hxy htail ih =>
    refine List.Forall₂.cons (himp _ (by simp) _ (by simp) hxy) (ih ?_)
    intro x hx y hy
    exact himp x (by simp [hx]) y (by simp [hy])

/-- Composing two `Forall₂`s with a relation transitive on the members. -/
theorem forall₂_trans_mem {R : Node → Node → Prop} :
    ∀ {l1 l2 l3 : List Node},
      (∀ x ∈ l1, ∀ y ∈ l2, ∀ z ∈ l3, R x y → R y z → R x z) →
      List.Forall₂ R l1 l2 → List.Forall₂ R l2 l3 → List.Forall₂ R l1 l3 := by
  intro l1 l2 l3 htrans h12
  induction h12 generalizing l3 with
  | nil =>
    intro h23
    rw [List.forall₂_nil_left_iff] at h23
    subst h23
    exact List.Forall₂.nil
  | cons hxy htail ih =>
    intro h23
    cases h23 with
    | cons hyz htail2 =>
      refine List.Forall₂.cons
        (htrans _ (by simp) _ (by simp) _ (by simp) hxy hyz) (ih ?_ htail2)
      intro x hx y hy z hz
      exact htrans x (by simp [hx]) y (by simp [hy]) z (by simp [hz])

/-! ## Symmetry and transitivity of the per-pair match relation

The relation a greedy step uses to pair an expected child with an actual
child — trimmed/raw text equality, recursive element comparison success,
comments only under `ignore_comments` — is a partial equivalence relation.
The proof works by induction on tree depth, because the unordered case needs
the greedy characterisation, which in turn needs symmetry and transitivity
one level down. -/

mutual

/-- Nesting depth of a node: leaves have depth 0. -/
def nodeDepth : Node → Nat
  | .element _ _ children => 1 + nodesDepth children
  | _ => 0

/-- Maximum nesting depth of a list of nodes. -/
def nodesDepth : List Node → Nat
  | [] => 0
  | n :: ns => max (nodeDepth n) (nodesDepth ns)

end

@[simp] theorem nodesDepth_nil : nodesDepth [] = 0 := by simp [nodesDepth]

@[simp] theorem nodesDepth_cons (n : Node) (ns : List Node) :
    nodesDepth (n :: ns) = max (nodeDepth n) (nodesDepth ns) := by simp [nodesDepth]

@[simp] theorem nodeDepth_element (t : String) (a : List (String × String))
    (c : List Node) : nodeDepth (.element t a c) = 1 + nodesDepth c := by
  simp [nodeDepth]

theorem nodeDepth_le_of_mem {n : Node} {l : List Node} (h : n ∈ l) :
    nodeDepth n ≤ nodesDepth l := by
  induction l with
  | nil => cases h
  | cons m ms ih =>
    rcases List.mem_cons.mp h with h | h
    · subst h; simp
    · simp only [nodesDepth_cons]
      exact le_trans (ih h) (le_max_right _ _)

theorem nodesDepth_filter_le (p : Node → Bool) (l : List Node) :
    nodesDepth (l.filter p) ≤ nodesDepth l := by
  induction l with
  | nil => simp
  | cons n ns ih =>
    by_cases h : p n = true <;> simp [List.filter_cons, h] <;> omega

/-- The per-pair success condition of one position of the ordered walk
(src/lib.rs lines 293-349): the comparison at that position does not
produce an error. -/
def orderedPass (o : HtmlCompareOptions) (e a : Node) : Bool :=
  match e, a with
  | .text et, .text at2 =>
    o.ignore_text ||
      (if o.ignore_whitespace then rustTrim et == rustTrim at2 else et == at2)
  | .comment ec, .comment ac => o.ignore_comments || (rustTrim ec == rustTrim ac)
  | .element t1 a1 c1, .element t2 a2 c2 =>
    resultOk (compare_element_refs o t1 a1 c1 t2 a2 c2)
  | _, _ => false

/-- One position of the ordered walk succeeds and continues exactly when the
aligned pair passes. -/
theorem compare_ordered_go_cons (o : HtmlCompareOptions) (i : Nat)
    (e a : Node) (es as : List Node) :
    resultOk (compare_ordered_go o i (e :: es) (a :: as)) =
      (orderedPass o e a && resultOk (compare_ordered_go o (i + 1) es as)) := by
  cases e with
  | text et =>
    cases a with
    | text at2 =>
      cases hit : o.ignore_text with
      | true => simp [compare_ordered_go, orderedPass, hit]
      | false =>
        cases hiw : o.ignore_whitespace with
        | true =>
          by_cases heq : rustTrim et = rustTrim at2
          · simp [compare_ordered_go, orderedPass, hit, hiw, heq]
          · simp [compare_ordered_go, orderedPass, hit, hiw, heq,
              beq_eq_false_iff_ne.mpr heq]
        | false =>
          by_cases heq : et = at2
          · simp [compare_ordered_go, orderedPass, hit, hiw, heq]
          · simp [compare_ordered_go, orderedPass, hit, hiw, heq,
              beq_eq_false_iff_ne.mpr heq]
    | element t2 a2 c2 => simp [compare_ordered_go, orderedPass]
    | comment ac => simp [compare_ordered_go, orderedPass]
    | processingInstruction => simp [compare_ordered_go, orderedPass]
    | doctype => simp [compare_ordered_go, orderedPass]
    | document => simp [compare_ordered_go, orderedPass]
    | fragment => simp [compare_ordered_go, orderedPass]
  | comment ec =>
    cases a with
    | comment ac =>
      cases hic : o.ignore_comments with
      | true => simp [compare_ordered_go, orderedPass, hic]
      | false =>
        by_cases heq : rustTrim ec = rustTrim ac
        · simp [compare_ordered_go, orderedPass, hic, heq]
        · simp [compare_ordered_go, orderedPass, hic, heq,
            beq_eq_false_iff_ne.mpr heq]
    | text at2 => simp [compare_ordered_go, orderedPass]
    | element t2 a2 c2 => simp [compare_ordered_go, orderedPass]
    | processingInstruction => simp [compare_ordered_go, orderedPass]
    | doctype => simp [compare_ordered_go, orderedPass]
    | document => simp [compare_ordered_go, orderedPass]
    | fragment => simp [compare_ordered_go, orderedPass]
  | element t1 a1 c1 =>
    cases a with
    | element t2 a2 c2 =>
      cases hc : compare_element_refs o t1 a1 c1 t2 a2 c2 with
      | ok u => cases u; simp [compare_ordered_go, orderedPass, hc]
      | error err => simp [compare_ordered_go, orderedPass, hc]
    | text at2 => simp [compare_ordered_go, orderedPass]
    | comment ac => simp [compare_ordered_go, orderedPass]
    | processingInstruction => simp [compare_ordered_go, orderedPass]
    | doctype => simp [compare_ordered_go, orderedPass]
    | document => simp [compare_ordered_go, orderedPass]
    | fragment => simp [compare_ordered_go, orderedPass]
  | processingInstruction => cases a <;> simp [compare_ordered_go, orderedPass]
  | doctype => cases a <;> simp [compare_ordered_go, orderedPass]
  | document => cases a <;> simp [compare_ordered_go, orderedPass]
  | fragment => cases a <;> simp [compare_ordered_go, orderedPass]

/-- The ordered walk succeeds exactly when every aligned pair passes. -/
theorem compare_ordered_go_resultOk (o : HtmlCompareOptions) :
    ∀ (es as : List Node) (i : Nat),
      resultOk (compare_ordered_go o i es as) =
        (es.zip as).all (fun p => orderedPass o p.1 p.2) := by
  intro es
  induction es with
  | nil => intro as i; cases as <;> simp [compare_ordered_go]
  | cons e es ih =>
    intro as i
    cases as with
    | nil => simp [compare_ordered_go]
    | cons a as =>
      rw [compare_ordered_go_cons, ih as (i + 1)]
      simp

/-- Success of the ordered child comparison as a `Forall₂`. -/
theorem compare_ordered_nodes_ok_iff (o : HtmlCompareOptions) (es as : List Node) :
    resultOk (compare_ordered_nodes o es as) = true ↔
      List.Forall₂ (fun e a => orderedPass o e a = true) es as := by
  by_cases h : es.length = as.length
  · have hstep : compare_ordered_nodes o es as = compare_ordered_go o 0 es as := by
      simp [compare_ordered_nodes, h]
    rw [hstep, compare_ordered_go_resultOk, List.forall₂_iff_zip]
    simp only [List.all_eq_true]
    constructor
    · intro hall
      exact ⟨h, fun {a b} hab => hall (a, b) hab⟩
    · intro hf
      exact fun p hp => hf.2 hp
  · constructor
    · intro hok
      exfalso
      simp [compare_ordered_nodes, h] at hok
    · intro hf
      exact absurd ((List.forall₂_iff_zip.mp hf).1) h

/-- The tag-and-attribute precondition of one element pair: attributes are
skipped entirely or the filtered sets agree. -/
def attrsOk (o : HtmlCompareOptions) (a1 a2 : List (String × String)) : Bool :=
  o.ignore_attributes || attrSetEq (filteredAttrs o a1) (filteredAttrs o a2)

/-- The child-list part of one element comparison: the inclusion-filtered
children compared in the mode selected by `ignore_sibling_order`. -/
def childrenOk (o : HtmlCompareOptions) (c1 c2 : List Node) : Bool :=
  if o.ignore_sibling_order then
    resultOk (compare_unordered_nodes o (c1.filter (should_include_node o))
      (c2.filter (should_include_node o)))
  else
    resultOk (compare_ordered_nodes o (c1.filter (should_include_node o))
      (c2.filter (should_include_node o)))

/-- Success of one element comparison, split into its three stages. -/
theorem compare_element_refs_ok_iff (o : HtmlCompareOptions)
    (t1 : String) (a1 : List (String × String)) (c1 : List Node)
    (t2 : String) (a2 : List (String × String)) (c2 : List Node) :
    resultOk (compare_element_refs o t1 a1 c1 t2 a2 c2) = true ↔
      t1 = t2 ∧ attrsOk o a1 a2 = true ∧ childrenOk o c1 c2 = true := by
  by_cases ht : t1 = t2
  · subst ht
    cases hia : o.ignore_attributes with
    | true =>
      simp only [compare_element_refs, ne_eq, not_true_eq_false, if_neg
        (by simp : ¬ (t1 ≠ t1)), hia, Bool.not_true, Bool.false_eq_true]
      simp only [attrsOk, hia, Bool.true_or, childrenOk]
      cases hsib : o.ignore_sibling_order <;> simp [hsib]
    | false =>
      cases hca : compare_attributes o a1 a2 with
      | ok u =>
        cases u
        have hset := (compare_attributes_ok_iff o a1 a2).mp hca
        simp only [compare_element_refs, ne_eq, not_true_eq_false, if_neg
          (by simp : ¬ (t1 ≠ t1)), hia, Bool.not_false, if_pos rfl, hca]
        simp only [attrsOk, hia, hset, Bool.false_or, childrenOk]
        cases hsib : o.ignore_sibling_order <;> simp [hsib]
      | error err =>
        have hset : attrSetEq (filteredAttrs o a1) (filteredAttrs o a2) = false := by
          by_cases hs : attrSetEq (filteredAttrs o a1) (filteredAttrs o a2) = true
          · rw [(compare_attributes_ok_iff o a1 a2).mpr hs] at hca; cases hca
          · simpa using hs
        simp only [compare_element_refs, ne_eq, not_true_eq_false, if_neg
          (by simp : ¬ (t1 ≠ t1)), hia, Bool.not_false, if_pos rfl, hca]
        simp [attrsOk, hia, hset]
  · simp [compare_element_refs, ht]

/-- The element-pair arm of the unordered matcher is exactly element
comparison success. -/
theorem nodes_match_element (o : HtmlCompareOptions)
    (t1 : String) (a1 : List (String × String)) (c1 : List Node)
    (t2 : String) (a2 : List (String × String)) (c2 : List Node) :
    nodes_match o (.element t1 a1 c1) (.element t2 a2 c2) =
      resultOk (compare_element_refs o t1 a1 c1 t2 a2 c2) := by
  cases hc : compare_element_refs o t1 a1 c1 t2 a2 c2 with
  | ok u => cases u; simp [nodes_match, hc]
  | error err => simp [nodes_match, hc]

/-- Success of the unordered child comparison is the existence of a perfect
matching, provided the per-pair relation is symmetric and transitive on the
nodes involved. -/
theorem compare_unordered_nodes_ok_iff (o : HtmlCompareOptions) (es as : List Node)
    (hsym : ∀ x ∈ es ++ as, ∀ y ∈ es ++ as,
      nodes_match o x y = nodes_match o y x)
    (htrans : ∀ x y z, x ∈ es ++ as → y ∈ es ++ as → z ∈ es ++ as →
      nodes_match o x y = true → nodes_match o y z = true →
      nodes_match o x z = true) :
    resultOk (compare_unordered_nodes o es as) = true ↔
      es.length = as.length ∧ HasPerfectMatching o es as := by
  by_cases h : es.length = as.length
  · rw [compare_unordered_nodes_resultOk o es as h]
    constructor
    · intro hg
      exact ⟨h, greedyR_sound o es as h hg⟩
    · intro hm
      exact greedyR_complete o es as hsym htrans hm.2
  · constructor
    · intro hok
      exfalso
      simp [compare_unordered_nodes, h] at hok
    · intro hm
      exact absurd hm.1 h

/-- A perfect matching can be read in the other direction when the per-pair
relation is symmetric on the nodes involved. -/
theorem HasPerfectMatching.symm_of (o : HtmlCompareOptions) {es as : List Node}
    (hsym : ∀ x ∈ es, ∀ y ∈ as, nodes_match o x y = nodes_match o y x) :
    HasPerfectMatching o es as → HasPerfectMatching o as es := by
  rintro ⟨perm, hperm, hfa⟩
  have hflip := hfa.flip
  have hfa2 : List.Forall₂ (fun x y => nodes_match o x y = true) perm es := by
    refine forall₂_imp_mem ?_ hflip
    intro x hx y hy hxy
    rw [← hsym y hy x ((hperm.mem_iff).mp hx)]
    exact hxy
  obtain ⟨es2, hp2, hfa3⟩ := forall₂_perm_left hperm hfa2
  exact ⟨es2, hp2.symm, hfa3⟩

/-- Perfect matchings compose when the per-pair relation is transitive on
the nodes involved. -/
theorem HasPerfectMatching.trans_of (o : HtmlCompareOptions) {es as bs : List Node}
    (htrans : ∀ x ∈ es, ∀ y ∈ as, ∀ z ∈ bs,
      nodes_match o x y = true → nodes_match o y z = true →
      nodes_match o x z = true) :
    HasPerfectMatching o es as → HasPerfectMatching o as bs →
      HasPerfectMatching o es bs := by
  rintro ⟨p1, hp1, hf1⟩ ⟨p2, hp2, hf2⟩
  obtain ⟨p3, hp3, hf3⟩ := forall₂_perm_left hp1.symm hf2
  have hf4 : List.Forall₂ (fun x y => nodes_match o x y = true) es p3 := by
    refine forall₂_trans_mem ?_ hf1 hf3
    intro x hx y hy z hz
    exact htrans x hx y ((hp1.mem_iff).mp hy) z ((hp2.mem_iff).mp ((hp3.mem_iff).mpr hz))
  exact ⟨p3, hp3.symm.trans hp2, hf4⟩

/-- `==` on strings is symmetric as a boolean. -/
theorem string_beq_comm (a b : String) : (a == b) = (b == a) := by
  by_cases h : a = b
  · subst h; rfl
  · rw [beq_eq_false_iff_ne.mpr h, beq_eq_false_iff_ne.mpr (Ne.symm h)]

/-- Symmetry of the per-pair relation, given symmetry of the element case. -/
theorem nm_symm_of (o : HtmlCompareOptions) (e a : Node)
    (hel : ∀ t1 a1 c1 t2 a2 c2, e = .element t1 a1 c1 → a = .element t2 a2 c2 →
      resultOk (compare_element_refs o t1 a1 c1 t2 a2 c2) =
        resultOk (compare_element_refs o t2 a2 c2 t1 a1 c1)) :
    nodes_match o e a = nodes_match o a e := by
  cases e with
  | text et =>
    cases a with
    | text at2 =>
      simp only [nodes_match]
      rw [string_beq_comm et at2, string_beq_comm (rustTrim et) (rustTrim at2)]
    | element t2 a2 c2 => simp [nodes_match]
    | comment ac => simp [nodes_match]
    | processingInstruction => simp [nodes_match]
    | doctype => simp [nodes_match]
    | document => simp [nodes_match]
    | fragment => simp [nodes_match]
  | comment ec => cases a <;> simp [nodes_match]
  | element t1 a1 c1 =>
    cases a with
    | element t2 a2 c2 =>
      rw [nodes_match_element, nodes_match_element]
      exact hel t1 a1 c1 t2 a2 c2 rfl rfl
    | text at2 => simp [nodes_match]
    | comment ac => simp [nodes_match]
    | processingInstruction => simp [nodes_match]
    | doctype => simp [nodes_match]
    | document => simp [nodes_match]
    | fragment => simp [nodes_match]
  | processingInstruction => cases a <;> simp [nodes_match]
  | doctype => cases a <;> simp [nodes_match]
  | document => cases a <;> simp [nodes_match]
  | fragment => cases a <;> simp [nodes_match]

/-- Transitivity of the per-pair relation, given transitivity of the element
case. -/
theorem nm_trans_of (o : HtmlCompareOptions) (e a b : Node)
    (hel : ∀ t1 a1 c1 t2 a2 c2 t3 a3 c3, e = .element t1 a1 c1 →
      a = .element t2 a2 c2 → b = .element t3 a3 c3 →
      resultOk (compare_element_refs o t1 a1 c1 t2 a2 c2) = true →
      resultOk (compare_element_refs o t2 a2 c2 t3 a3 c3) = true →
      resultOk (compare_element_refs o t1 a1 c1 t3 a3 c3) = true)
    (h1 : nodes_match o e a = true) (h2 : nodes_match o a b = true) :
    nodes_match o e b = true := by
  cases e with
  | text et =>
    cases a with
    | text at2 =>
      cases b with
      | text bt =>
        simp only [nodes_match] at h1 h2 ⊢
        cases hit : o.ignore_text with
        | true => simp [hit]
        | false =>
          cases hiw : o.ignore_whitespace with
          | true =>
            simp only [hit, hiw, Bool.false_or, Bool.not_true, Bool.false_and,
              Bool.true_and, beq_iff_eq] at h1 h2 ⊢
            exact h1.trans h2
          | false =>
            simp only [hit, hiw, Bool.false_or, Bool.not_false, Bool.true_and,
              Bool.false_and, Bool.or_false, beq_iff_eq] at h1 h2 ⊢
            exact h1.trans h2
      | element t3 a3 c3 => simp [nodes_match] at h2
      | comment bc => simp [nodes_match] at h2
      | processingInstruction => simp [nodes_match] at h2
      | doctype => simp [nodes_match] at h2
      | document => simp [nodes_match] at h2
      | fragment => simp [nodes_match] at h2
    | element t2 a2 c2 => simp [nodes_match] at h1
    | comment ac => simp [nodes_match] at h1
    | processingInstruction => simp [nodes_match] at h1
    | doctype => simp [nodes_match] at h1
    | document => simp [nodes_match] at h1
    | fragment => simp [nodes_match] at h1
  | comment ec =>
    cases a with
    | comment ac =>
      cases b with
      | comment bc => simpa [nodes_match] using h1
      | text bt => simp [nodes_match] at h2
      | element t3 a3 c3 => simp [nodes_match] at h2
      | processingInstruction => simp [nodes_match] at h2
      | doctype => simp [nodes_match] at h2
      | document => simp [nodes_match] at h2
      | fragment => simp [nodes_match] at h2
    | text at2 => simp [nodes_match] at h1
    | element t2 a2 c2 => simp [nodes_match] at h1
    | processingInstruction => simp [nodes_match] at h1
    | doctype => simp [nodes_match] at h1
    | document => simp [nodes_match] at h1
    | fragment => simp [nodes_match] at h1
  | element t1 a1 c1 =>
    cases a with
    | element t2 a2 c2 =>
      cases b with
      | element t3 a3 c3 =>
        rw [nodes_match_element] at h1 h2 ⊢
        exact hel t1 a1 c1 t2 a2 c2 t3 a3 c3 rfl rfl rfl h1 h2
      | text bt => simp [nodes_match] at h2
      | comment bc => simp [nodes_match] at h2
      | processingInstruction => simp [nodes_match] at h2
      | doctype => simp [nodes_match] at h2
      | document => simp [nodes_match] at h2
      | fragment => simp [nodes_match] at h2
    | text at2 => simp [nodes_match] at h1
    | comment ac => simp [nodes_match] at h1
    | processingInstruction => simp [nodes_match] at h1
    | doctype => simp [nodes_match] at h1
    | document => simp [nodes_match] at h1
    | fragment => simp [nodes_match] at h1
  | processingInstruction => simp [nodes_match] at h1
  | doctype => simp [nodes_match] at h1
  | document => simp [nodes_match] at h1
  | fragment => simp [nodes_match] at h1

/-- Symmetry of the ordered per-position condition, given symmetry of the
element case. -/
theorem pass_symm_of (o : HtmlCompareOptions) (e a : Node)
    (hel : ∀ t1 a1 c1 t2 a2 c2, e = .element t1 a1 c1 → a = .element t2 a2 c2 →
      resultOk (compare_element_refs o t1 a1 c1 t2 a2 c2) =
        resultOk (compare_element_refs o t2 a2 c2 t1 a1 c1)) :
    orderedPass o e a = orderedPass o a e := by
  cases e with
  | text et =>
    cases a with
    | text at2 =>
      simp only [orderedPass]
      rw [string_beq_comm et at2, string_beq_comm (rustTrim et) (rustTrim at2)]
    | element t2 a2 c2 => simp [orderedPass]
    | comment ac => simp [orderedPass]
    | processingInstruction => simp [orderedPass]
    | doctype => simp [orderedPass]
    | document => simp [orderedPass]
    | fragment => simp [orderedPass]
  | comment ec =>
    cases a with
    | comment ac =>
      simp only [orderedPass]
      rw [string_beq_comm (rustTrim ec) (rustTrim ac)]
    | text at2 => simp [orderedPass]
    | element t2 a2 c2 => simp [orderedPass]
    | processingInstruction => simp [orderedPass]
    | doctype => simp [orderedPass]
    | document => simp [orderedPass]
    | fragment => simp [orderedPass]
  | element t1 a1 c1 =>
    cases a with
    | element t2 a2 c2 =>
      simp only [orderedPass]
      exact hel t1 a1 c1 t2 a2 c2 rfl rfl
    | text at2 => simp [orderedPass]
    | comment ac => simp [orderedPass]
    | processingInstruction => simp [orderedPass]
    | doctype => simp [orderedPass]
    | document => simp [orderedPass]
    | fragment => simp [orderedPass]
  | processingInstruction => cases a <;> simp [orderedPass]
  | doctype => cases a <;> simp [orderedPass]
  | document => cases a <;> simp [orderedPass]
  | fragment => cases a <;> simp [orderedPass]

/-- Transitivity of the ordered per-position condition, given transitivity
of the element case. -/
theorem pass_trans_of (o : HtmlCompareOptions) (e a b : Node)
    (hel : ∀ t1 a1 c1 t2 a2 c2 t3 a3 c3, e = .element t1 a1 c1 →
      a = .element t2 a2 c2 → b = .element t3 a3 c3 →
      resultOk (compare_element_refs o t1 a1 c1 t2 a2 c2) = true →
      resultOk (compare_element_refs o t2 a2 c2 t3 a3 c3) = true →
      resultOk (compare_element_refs o t1 a1 c1 t3 a3 c3) = true)
    (h1 : orderedPass o e a = true) (h2 : orderedPass o a b = true) :
    orderedPass o e b = true := by
  cases e with
  | text et =>
    cases a with
    | text at2 =>
      cases b with
      | text bt =>
        simp only [orderedPass] at h1 h2 ⊢
        cases hit : o.ignore_text with
        | true => simp [hit]
        | false =>
          cases hiw : o.ignore_whitespace with
          | true =>
            simp [hit, hiw] at h1 h2 ⊢
            exact h1.trans h2
          | false =>
            simp [hit, hiw] at h1 h2 ⊢
            exact h1.trans h2
      | element t3 a3 c3 => simp [orderedPass] at h2
      | comment bc => simp [orderedPass] at h2
      | processingInstruction => simp [orderedPass] at h2
      | doctype => simp [orderedPass] at h2
      | document => simp [orderedPass] at h2
      | fragment => simp [orderedPass] at h2
    | element t2 a2 c2 => simp [orderedPass] at h1
    | comment ac => simp [orderedPass] at h1
    | processingInstruction => simp [orderedPass] at h1
    | doctype => simp [orderedPass] at h1
    | document => simp [orderedPass] at h1
    | fragment => simp [orderedPass] at h1
  | comment ec =>
    cases a with
    | comment ac =>
      cases b with
      | comment bc =>
        simp only [orderedPass] at h1 h2 ⊢
        cases hic : o.ignore_comments with
        | true => simp [hic]
        | false =>
          simp only [hic, Bool.false_or, beq_iff_eq] at h1 h2 ⊢
          exact h1.trans h2
      | text bt => simp [orderedPass] at h2
      | element t3 a3 c3 => simp [orderedPass] at h2
      | processingInstruction => simp [orderedPass] at h2
      | doctype => simp [orderedPass] at h2
      | document => simp [orderedPass] at h2
      | fragment => simp [orderedPass] at h2
    | text at2 => simp [orderedPass] at h1
    | element t2 a2 c2 => simp [orderedPass] at h1
    | processingInstruction => simp [orderedPass] at h1
    | doctype => simp [orderedPass] at h1
    | document => simp [orderedPass] at h1
    | fragment => simp [orderedPass] at h1
  | element t1 a1 c1 =>
    cases a with
    | element t2 a2 c2 =>
      cases b with
      | element t3 a3 c3 =>
        simp only [orderedPass] at h1 h2 ⊢
        exact hel t1 a1 c1 t2 a2 c2 t3 a3 c3 rfl rfl rfl h1 h2
      | text bt => simp [orderedPass] at h2
      | comment bc => simp [orderedPass] at h2
      | processingInstruction => simp [orderedPass] at h2
      | doctype => simp [orderedPass] at h2
      | document => simp [orderedPass] at h2
      | fragment => simp [orderedPass] at h2
    | text at2 => simp [orderedPass] at h1
    | comment ac => simp [orderedPass] at h1
    | processingInstruction => simp [orderedPass] at h1
    | doctype => simp [orderedPass] at h1
    | document => simp [orderedPass] at h1
    | fragment => simp [orderedPass] at h1
  | processingInstruction => simp [orderedPass] at h1
  | doctype => simp [orderedPass] at h1
  | document => simp [orderedPass] at h1
  | fragment => simp [orderedPass] at h1

/-- The per-pair match relation is symmetric and transitive (a partial
equivalence relation), by induction on nesting depth.  The unordered child
case at depth `d + 1` goes through the perfect-matching characterisation of
the greedy matcher, which requires both properties one level down. -/
theorem nodes_match_symm_trans (o : HtmlCompareOptions) :
    ∀ d : Nat,
      (∀ e a : Node, nodeDepth e ≤ d → nodeDepth a ≤ d →
        nodes_match o e a = nodes_match o a e) ∧
      (∀ e a b : Node, nodeDepth e ≤ d → nodeDepth a ≤ d → nodeDepth b ≤ d →
        nodes_match o e a = true → nodes_match o a b = true →
        nodes_match o e b = true) := by
  intro d
  induction d with
  | zero =>
    constructor
    · intro e a hde hda
      refine nm_symm_of o e a ?_
      intro t1 a1 c1 t2 a2 c2 he ha
      subst he
      simp only [nodeDepth_element] at hde
      omega
    · intro e a b hde hda hdb h1 h2
      refine nm_trans_of o e a b ?_ h1 h2
      intro t1 a1 c1 t2 a2 c2 t3 a3 c3 he ha hb hx hy
      subst he
      simp only [nodeDepth_element] at hde
      omega
  | succ d ih =>
    obtain ⟨ihs, iht⟩ := ih
    have hmemdepth : ∀ (c : List Node) (x : Node),
        x ∈ c.filter (should_include_node o) → nodesDepth c ≤ d →
        nodeDepth x ≤ d := fun c x hx hc =>
      le_trans (le_trans (nodeDepth_le_of_mem hx) (nodesDepth_filter_le _ c)) hc
    have hps : ∀ x y : Node, nodeDepth x ≤ d → nodeDepth y ≤ d →
        orderedPass o x y = orderedPass o y x := by
      intro x y hx hy
      refine pass_symm_of o x y ?_
      intro ta1 aa1 cc1 ta2 aa2 cc2 hex hey
      have hval := ihs x y hx hy
      rw [hex, hey, nodes_match_element, nodes_match_element] at hval
      exact hval
    have hpt : ∀ x y z : Node, nodeDepth x ≤ d → nodeDepth y ≤ d →
        nodeDepth z ≤ d → orderedPass o x y = true → orderedPass o y z = true →
        orderedPass o x z = true := by
      intro x y z hx hy hz h1 h2
      refine pass_trans_of o x y z ?_ h1 h2
      intro ta1 aa1 cc1 ta2 aa2 cc2 ta3 aa3 cc3 hex hey hez hv1 hv2
      have hval := iht x y z hx hy hz
      rw [hex, hey, hez, nodes_match_element, nodes_match_element,
        nodes_match_element] at hval
      exact hval hv1 hv2
    have childSymm : ∀ ca cb : List Node, nodesDepth ca ≤ d → nodesDepth cb ≤ d →
        childrenOk o ca cb = true → childrenOk o cb ca = true := by
      intro ca cb hca hcb hch
      cases hsib : o.ignore_sibling_order with
      | false =>
        simp only [childrenOk, hsib, Bool.false_eq_true, if_false] at hch ⊢
        rw [compare_ordered_nodes_ok_iff] at hch ⊢
        refine forall₂_imp_mem ?_ hch.flip
        intro x hx y hy hxy
        rw [hps x y (hmemdepth cb x hx hcb) (hmemdepth ca y hy hca)]
        exact hxy
      | true =>
        simp only [childrenOk, hsib, if_true] at hch ⊢
        have hmem1 : ∀ x ∈ ca.filter (should_include_node o) ++
            cb.filter (should_include_node o), nodeDepth x ≤ d := by
          intro x hx
          rcases List.mem_append.mp hx with hx | hx
          · exact hmemdepth ca x hx hca
          · exact hmemdepth cb x hx hcb
        have hsym1 : ∀ x ∈ ca.filter (should_include_node o) ++
            cb.filter (should_include_node o),
            ∀ y ∈ ca.filter (should_include_node o) ++
            cb.filter (should_include_node o),
            nodes_match o x y = nodes_match o y x :=
          fun x hx y hy => ihs x y (hmem1 x hx) (hmem1 y hy)
        have htrans1 : ∀ x y z, x ∈ ca.filter (should_include_node o) ++
            cb.filter (should_include_node o) →
            y ∈ ca.filter (should_include_node o) ++
            cb.filter (should_include_node o) →
            z ∈ ca.filter (should_include_node o) ++
            cb.filter (should_include_node o) →
            nodes_match o x y = true → nodes_match o y z = true →
            nodes_match o x z = true :=
          fun x y z hx hy hz => iht x y z (hmem1 x hx) (hmem1 y hy) (hmem1 z hz)
        have hmem2 : ∀ x ∈ cb.filter (should_include_node o) ++
            ca.filter (should_include_node o), nodeDepth x ≤ d := by
          intro x hx
          rcases List.mem_append.mp hx with hx | hx
          · exact hmemdepth cb x hx hcb
          · exact hmemdepth ca x hx hca
        have hsym2 : ∀ x ∈ cb.filter (should_include_node o) ++
            ca.filter (should_include_node o),
            ∀ y ∈ cb.filter (should_include_node o) ++
            ca.filter (should_include_node o),
            nodes_match o x y = nodes_match o y x :=
          fun x hx y hy => ihs x y (hmem2 x hx) (hmem2 y hy)
        have htrans2 : ∀ x y z, x ∈ cb.filter (should_include_node o) ++
            ca.filter (should_include_node o) →
            y ∈ cb.filter (should_include_node o) ++
            ca.filter (should_include_node o) →
            z ∈ cb.filter (should_include_node o) ++
            ca.filter (should_include_node o) →
            nodes_match o x y = true → nodes_match o y z = true →
            nodes_match o x z = true :=
          fun x y z hx hy hz => iht x y z (hmem2 x hx) (hmem2 y hy) (hmem2 z hz)
        rw [compare_unordered_nodes_ok_iff o _ _ hsym1 htrans1] at hch
        rw [compare_unordered_nodes_ok_iff o _ _ hsym2 htrans2]
        refine ⟨hch.1.symm, ?_⟩
        refine HasPerfectMatching.symm_of o ?_ hch.2
        intro x hx y hy
        exact ihs x y (hmemdepth ca x hx hca) (hmemdepth cb y hy hcb)
    have childTrans : ∀ ca cb cc : List Node, nodesDepth ca ≤ d →
        nodesDepth cb ≤ d → nodesDepth cc ≤ d →
        childrenOk o ca cb = true → childrenOk o cb cc = true →
        childrenOk o ca cc = true := by
      intro ca cb cc hca hcb hcc h1 h2
      cases hsib : o.ignore_sibling_order with
      | false =>
        simp only [childrenOk, hsib, Bool.false_eq_true, if_false] at h1 h2 ⊢
        rw [compare_ordered_nodes_ok_iff] at h1 h2 ⊢
        refine forall₂_trans_mem ?_ h1 h2
        intro x hx y hy z hz
        exact hpt x y z (hmemdepth ca x hx hca) (hmemdepth cb y hy hcb)
          (hmemdepth cc z hz hcc)
      | true =>
        simp only [childrenOk, hsib, if_true] at h1 h2 ⊢
        have hmemab : ∀ x ∈ ca.filter (should_include_node o) ++
            cb.filter (should_include_node o), nodeDepth x ≤ d := by
          intro x hx
          rcases List.mem_append.mp hx with hx | hx
          · exact hmemdepth ca x hx hca
          · exact hmemdepth cb x hx hcb
        have hmembc : ∀ x ∈ cb.filter (should_include_node o) ++
            cc.filter (should_include_node o), nodeDepth x ≤ d := by
          intro x hx
          rcases List.mem_append.mp hx with hx | hx
          · exact hmemdepth cb x hx hcb
          · exact hmemdepth cc x hx hcc
        have hmemac : ∀ x ∈ ca.filter (should_include_node o) ++
            cc.filter (should_include_node o), nodeDepth x ≤ d := by
          intro x hx
          rcases List.mem_append.mp hx with hx | hx
          · exact hmemdepth ca x hx hca
          · exact hmemdepth cc x hx hcc
        rw [compare_unordered_nodes_ok_iff o _ _
          (fun x hx y hy => ihs x y (hmemab x hx) (hmemab y hy))
          (fun x y z hx hy hz => iht x y z (hmemab x hx) (hmemab y hy)
            (hmemab z hz))] at h1
        rw [compare_unordered_nodes_ok_iff o _ _
          (fun x hx y hy => ihs x y (hmembc x hx) (hmembc y hy))
          (fun x y z hx hy hz => iht x y z (hmembc x hx) (hmembc y hy)
            (hmembc z hz))] at h2
        rw [compare_unordered_nodes_ok_iff o _ _
          (fun x hx y hy => ihs x y (hmemac x hx) (hmemac y hy))
          (fun x y z hx hy hz => iht x y z (hmemac x hx) (hmemac y hy)
            (hmemac z hz))]
        refine ⟨h1.1.trans h2.1, ?_⟩
        refine HasPerfectMatching.trans_of o ?_ h1.2 h2.2
        intro x hx y hy z hz
        exact iht x y z (hmemdepth ca x hx hca) (hmemdepth cb y hy hcb)
          (hmemdepth cc z hz hcc)
    have elemSymm : ∀ (t1 : String) (a1 : List (String × String)) (c1 : List Node)
        (t2 : String) (a2 : List (String × String)) (c2 : List Node),
        nodesDepth c1 ≤ d → nodesDepth c2 ≤ d →
        resultOk (compare_element_refs o t1 a1 c1 t2 a2 c2) =
          resultOk (compare_element_refs o t2 a2 c2 t1 a1 c1) := by
      have main : ∀ (ta : String) (aa : List (String × String)) (ca : List Node)
          (tb : String) (ab : List (String × String)) (cb : List Node),
          nodesDepth ca ≤ d → nodesDepth cb ≤ d →
          (ta = tb ∧ attrsOk o aa ab = true ∧ childrenOk o ca cb = true) →
          (tb = ta ∧ attrsOk o ab aa = true ∧ childrenOk o cb ca = true) := by
        rintro ta aa ca tb ab cb hca hcb ⟨ht, hat, hch⟩
        refine ⟨ht.symm, ?_, childSymm ca cb hca hcb hch⟩
        unfold attrsOk at hat ⊢
        rw [attrSetEq_symm (filteredAttrs o ab) (filteredAttrs o aa)]
        exact hat
      intro t1 a1 c1 t2 a2 c2 h1 h2
      rw [Bool.eq_iff_iff, compare_element_refs_ok_iff, compare_element_refs_ok_iff]
      exact ⟨main t1 a1 c1 t2 a2 c2 h1 h2, main t2 a2 c2 t1 a1 c1 h2 h1⟩
    have elemTrans : ∀ (t1 : String) (a1 : List (String × String)) (c1 : List Node)
        (t2 : String) (a2 : List (String × String)) (c2 : List Node)
        (t3 : String) (a3 : List (String × String)) (c3 : List Node),
        nodesDepth c1 ≤ d → nodesDepth c2 ≤ d → nodesDepth c3 ≤ d →
        resultOk (compare_element_refs o t1 a1 c1 t2 a2 c2) = true →
        resultOk (compare_element_refs o t2 a2 c2 t3 a3 c3) = true →
        resultOk (compare_element_refs o t1 a1 c1 t3 a3 c3) = true := by
      intro t1 a1 c1 t2 a2 c2 t3 a3 c3 h1 h2 h3 hv1 hv2
      rw [compare_element_refs_ok_iff] at hv1 hv2 ⊢
      obtain ⟨ht1, ha1, hc1⟩ := hv1
      obtain ⟨ht2, ha2, hc2⟩ := hv2
      refine ⟨ht1.trans ht2, ?_, childTrans c1 c2 c3 h1 h2 h3 hc1 hc2⟩
      unfold attrsOk at ha1 ha2 ⊢
      cases hia : o.ignore_attributes with
      | true => simp
      | false =>
        rw [hia] at ha1 ha2
        simp only [Bool.false_or] at ha1 ha2
        simp only [Bool.false_or]
        exact attrSetEq_trans ha1 ha2
    constructor
    · intro e a hde hda
      refine nm_symm_of o e a ?_
      intro t1 a1 c1 t2 a2 c2 he ha
      subst he; subst ha
      simp only [nodeDepth_element] at hde hda
      exact elemSymm t1 a1 c1 t2 a2 c2 (by omega) (by omega)
    · intro e a b hde hda hdb h1 h2
      refine nm_trans_of o e a b ?_ h1 h2
      intro t1 a1 c1 t2 a2 c2 t3 a3 c3 he ha hb hx hy
      subst he; subst ha; subst hb
      simp only [nodeDepth_element] at hde hda hdb
      exact elemTrans t1 a1 c1 t2 a2 c2 t3 a3 c3 (by omega) (by omega) (by omega)
        hx hy

/-- Symmetry of the per-pair match relation. -/
theorem nodes_match_symm (o : HtmlCompareOptions) (e a : Node) :
    nodes_match o e a = nodes_match o a e :=
  (nodes_match_symm_trans o (max (nodeDepth e) (nodeDepth a))).1 e a
    (le_max_left _ _) (le_max_right _ _)

/-- Transitivity of the per-pair match relation. -/
theorem nodes_match_trans (o : HtmlCompareOptions) (e a b : Node)
    (h1 : nodes_match o e a = true) (h2 : nodes_match o a b = true) :
    nodes_match o e b = true :=
  (nodes_match_symm_trans o (max (nodeDepth e) (max (nodeDepth a) (nodeDepth b)))).2
    e a b (le_max_left _ _)
    (le_trans (le_max_left _ _) (le_max_right _ _))
    (le_trans (le_max_right _ _) (le_max_right _ _)) h1 h2

/-- The verdict of one element comparison is symmetric in its two sides. -/
theorem compare_element_refs_symm (o : HtmlCompareOptions)
    (t1 : String) (a1 : List (String × String)) (c1 : List Node)
    (t2 : String) (a2 : List (String × String)) (c2 : List Node) :
    resultOk (compare_element_refs o t1 a1 c1 t2 a2 c2) =
      resultOk (compare_element_refs o t2 a2 c2 t1 a1 c1) := by
  have hval := nodes_match_symm o (.element t1 a1 c1) (.element t2 a2 c2)
  rwa [nodes_match_element, nodes_match_element] at hval

/-- Success of the unordered child comparison is exactly equal counts plus
the existence of a perfect matching (the side conditions of the
characterisation hold unconditionally). -/
theorem compare_unordered_nodes_ok_iff_matching (o : HtmlCompareOptions)
    (es as : List Node) :
    resultOk (compare_unordered_nodes o es as) = true ↔
      es.length = as.length ∧ HasPerfectMatching o es as :=
  compare_unordered_nodes_ok_iff o es as
    (fun x _ y _ => nodes_match_symm o x y)
    (fun x y z _ _ _ => nodes_match_trans o x y z)

@[simp] theorem resultOk_map {α β : Type} (f : α → β)
    (r : Except HtmlCompareError α) : resultOk (r.map f) = resultOk r := by
  cases r <;> simp [Except.map]

/-! ## Reflexivity

`Html::parse_document(..).root_element()` never has doctype, document,
fragment or processing-instruction nodes below it, so trees fed to the
engine consist of elements, text and comments only; `goodNode` captures
that shape. -/

mutual

/-- Whether a node is of a kind the parser can place below the root element:
element, text or comment. -/
def goodNode : Node → Bool
  | .text _ => true
  | .comment _ => true
  | .element _ _ children => goodNodes children
  | _ => false

/-- All nodes of a list, recursively, are of parser-producible kinds. -/
def goodNodes : List Node → Bool
  | [] => true
  | n :: ns => goodNode n && goodNodes ns

end

@[simp] theorem goodNodes_nil : goodNodes [] = true := by simp [goodNodes]

@[simp] theorem goodNodes_cons (n : Node) (ns : List Node) :
    goodNodes (n :: ns) = (goodNode n && goodNodes ns) := by simp [goodNodes]

theorem goodNode_of_mem {l : List Node} {n : Node}
    (hl : goodNodes l = true) (h : n ∈ l) : goodNode n = true := by
  induction l with
  | nil => cases h
  | cons m ms ih =>
    simp only [goodNodes_cons, Bool.and_eq_true] at hl
    rcases List.mem_cons.mp h with h | h
    · subst h; exact hl.1
    · exact ih hl.2 h

theorem nodeSize_le_of_mem {n : Node} {l : List Node} (h : n ∈ l) :
    nodeSize n ≤ nodesSize l := by
  induction l with
  | nil => cases h
  | cons m ms ih =>
    rcases List.mem_cons.mp h with h | h
    · subst h; simp
    · simp only [nodesSize_cons]
      exact le_trans (ih h) (Nat.le_add_left _ _)

theorem forall₂_refl_mem {R : Node → Node → Prop} :
    ∀ {l : List Node}, (∀ x ∈ l, R x x) → List.Forall₂ R l l := by
  intro l h
  induction l with
  | nil => exact List.Forall₂.nil
  | cons x xs ih =>
    exact List.Forall₂.cons (h x (by simp)) (ih (fun y hy => h y (by simp [hy])))

/-- On identical lists whose members match themselves, greedy matching
pairs every child with itself. -/
theorem greedyR_refl (o : HtmlCompareOptions) :
    ∀ l : List Node, (∀ x ∈ l, nodes_match o x x = true) → greedyR o l l = true := by
  intro l
  induction l with
  | nil => intro _; simp [greedyR]
  | cons e l ih =>
    intro h
    rw [greedyR]
    have he : nodes_match o e e = true := h e (by simp)
    simp only [extractFirst, he, if_pos rfl]
    exact ih (fun x hx => h x (by simp [hx]))

/-- Comparing an element's components against themselves succeeds, for trees
of parser-producible nodes, when the mode is ordered or comments are
ignored.  (With `ignore_sibling_order` and comments kept, a comment child
matches nothing in unordered mode — reflexivity genuinely fails there.) -/
theorem compare_element_refs_refl (o : HtmlCompareOptions)
    (hmode : o.ignore_sibling_order = false ∨ o.ignore_comments = true) :
    ∀ (n : Nat) (c : List Node), nodesSize c ≤ n → goodNodes c = true →
      ∀ (t : String) (a : List (String × String)),
        resultOk (compare_element_refs o t a c t a c) = true := by
  intro n
  induction n with
  | zero =>
    intro c hc hg t a
    have hnil : c = [] := by
      cases c with
      | nil => rfl
      | cons x xs =>
        exfalso
        have := nodeSize_pos x
        simp only [nodesSize_cons] at hc
        omega
    subst hnil
    rw [compare_element_refs_ok_iff]
    refine ⟨rfl, by simp [attrsOk, attrSetEq_refl], ?_⟩
    unfold childrenOk
    cases hsib : o.ignore_sibling_order with
    | false =>
      simp only [Bool.false_eq_true, if_false, List.filter_nil]
      rw [compare_ordered_nodes_ok_iff]
      exact List.Forall₂.nil
    | true =>
      simp only [if_true, List.filter_nil]
      rw [compare_unordered_nodes_ok_iff_matching]
      exact ⟨rfl, [], List.Perm.refl _, List.Forall₂.nil⟩
  | succ n ihn =>
    intro c hc hg t a
    rw [compare_element_refs_ok_iff]
    refine ⟨rfl, by simp [attrsOk, attrSetEq_refl], ?_⟩
    have hsize_mem : ∀ x ∈ c.filter (should_include_node o),
        nodeSize x ≤ nodesSize c :=
      fun x hx => nodeSize_le_of_mem (List.mem_of_mem_filter hx)
    have hgood_mem : ∀ x ∈ c.filter (should_include_node o), goodNode x = true :=
      fun x hx => goodNode_of_mem hg (List.mem_of_mem_filter hx)
    unfold childrenOk
    cases hsib : o.ignore_sibling_order with
    | false =>
      simp only [Bool.false_eq_true, if_false]
      rw [compare_ordered_nodes_ok_iff]
      refine forall₂_refl_mem ?_
      intro x hx
      cases x with
      | text s =>
        simp only [orderedPass]
        cases o.ignore_whitespace <;> simp
      | comment s => simp [orderedPass]
      | element t2 a2 c2 =>
        simp only [orderedPass]
        refine ihn c2 ?_ ?_ t2 a2
        · have := hsize_mem _ hx
          simp only [nodeSize_element] at this
          omega
        · have := hgood_mem _ hx
          simpa [goodNode] using this
      | processingInstruction => exact absurd (hgood_mem _ hx) (by simp [goodNode])
      | doctype => exact absurd (hgood_mem _ hx) (by simp [goodNode])
      | document => exact absurd (hgood_mem _ hx) (by simp [goodNode])
      | fragment => exact absurd (hgood_mem _ hx) (by simp [goodNode])
    | true =>
      have hic : o.ignore_comments = true := by
        rcases hmode with hmode | hmode
        · rw [hmode] at hsib; cases hsib
        · exact hmode
      simp only [if_true]
      rw [compare_unordered_nodes_resultOk o _ _ rfl]
      refine greedyR_refl o _ ?_
      intro x hx
      cases x with
      | text s =>
        simp only [nodes_match]
        cases o.ignore_whitespace <;> simp
      | comment s =>
        exfalso
        have := (List.mem_filter.mp hx).2
        simp [should_include_node, hic] at this
      | element t2 a2 c2 =>
        rw [nodes_match_element]
        refine ihn c2 ?_ ?_ t2 a2
        · have := hsize_mem _ hx
          simp only [nodeSize_element] at this
          omega
        · have := hgood_mem _ hx
          simpa [goodNode] using this
      | processingInstruction => exact absurd (hgood_mem _ hx) (by simp [goodNode])
      | doctype => exact absurd (hgood_mem _ hx) (by simp [goodNode])
      | document => exact absurd (hgood_mem _ hx) (by simp [goodNode])
      | fragment => exact absurd (hgood_mem _ hx) (by simp [goodNode])

/-! ## Rendered attribute sets

`compare_attributes` reports a mismatch through
`format!("Attributes mismatch. Expected: {:?}, Actual: {:?}", ..)` applied
to two `HashSet<(&str, &str)>` values.  `{:?}` on a `HashSet` prints the
elements in the set's iteration order, which depends on the per-instance
random hash keys (`RandomState`), so the rendered text is not a function of
the set alone.  The functions below model that rendering, taking the
enumeration the runtime happened to use as an explicit list. -/

/-- Debug rendering of one borrowed attribute pair: `("name", "value")`. -/
def renderAttrPair (p : String × String) : String :=
  "(\"" ++ p.1 ++ "\", \"" ++ p.2 ++ "\")"

/-- The rendered pairs of an attribute set in a given enumeration order. -/
def renderAttrSetList (attrEnum : List (String × String)) : List String :=
  attrEnum.map renderAttrPair

/-- Comma-separated concatenation, as `Debug` joins set elements. -/
def joinCommaSep : List String → String
  | [] => ""
  | [s] => s
  | s :: rest => s ++ ", " ++ joinCommaSep rest

/-- Debug rendering of an attribute set in a given enumeration order. -/
def renderAttrSet (attrEnum : List (String × String)) : String :=
  "\x7b" ++ joinCommaSep (renderAttrSetList attrEnum) ++ "\x7d"

/-- The attributes-mismatch message `compare_attributes` formats
(src/lib.rs lines 270-273), given the enumeration orders the two hash sets
happened to iterate in. -/
def attributes_mismatch_message
    (expectedEnum actualEnum : List (String × String)) : String :=
  "Attributes mismatch. Expected: " ++ renderAttrSet expectedEnum ++
    ", Actual: " ++ renderAttrSet actualEnum

theorem joinCommaSep_length :
    ∀ l : List String,
      (joinCommaSep l).length = (l.map String.length).sum + 2 * (l.length - 1)
  | [] => by simp [joinCommaSep]
  | [s] => by simp [joinCommaSep]
  | s :: t :: rest => by
    have ih := joinCommaSep_length (t :: rest)
    simp only [joinCommaSep, String.length_append, ih, List.map_cons,
      List.sum_cons, List.length_cons]
    have h2 : (", ").length = 2 := rfl
    rw [h2]
    omega

theorem joinCommaSep_length_perm {l1 l2 : List String} (h : l1.Perm l2) :
    (joinCommaSep l1).length = (joinCommaSep l2).length := by
  rw [joinCommaSep_length, joinCommaSep_length, (h.map String.length).sum_eq,
    h.length_eq]

/-- A comment child never matches any actual child in unordered mode when
comments are compared (src/lib.rs lines 397-401: the comment/comment arm is
guarded by `ignore_comments`, and no other arm accepts a comment). -/
theorem nodes_match_comment_left (o : HtmlCompareOptions) (c : String)
    (hic : o.ignore_comments = false) :
    ∀ a : Node, nodes_match o (.comment c) a = false := by
  intro a
  cases a <;> simp [nodes_match, hic]

/-- When the expected child matches nothing, the inner loop finds no
unmatched partner. -/
theorem find_unordered_match_none (o : HtmlCompareOptions) (e : Node)
    (hnone : ∀ a : Node, nodes_match o e a = false) :
    ∀ (as : List Node) (ms : List Bool), find_unordered_match o e as ms = none := by
  intro as
  induction as with
  | nil => intro ms; cases ms <;> simp [find_unordered_match]
  | cons a as ih =>
    intro ms
    cases ms with
    | nil => simp [find_unordered_match]
    | cons m ms => simp [find_unordered_match, hnone a, ih ms]

end HtmlCompare

deriving instance DecidableEq for Except

namespace HtmlCompare

/-! ## The claims -/

/-- C1: the verdict of `compare` is symmetric in its two inputs, for every
options value — in particular with `ignore_sibling_order` set, where the
children are paired by the greedy first-fit matcher of
`compare_unordered_nodes`. -/
theorem c1_verdict_symmetry (o : HtmlCompareOptions) (a b : ElementNode) :
    resultOk (compare o a b) = resultOk (compare o b a) := by
  simp only [compare, resultOk_map]
  exact compare_element_refs_symm o a.tag a.attrs a.children b.tag b.attrs b.children

/-- C2: `should_include_node` returns false exactly for text nodes with
`ignore_text`, or whitespace-only text nodes with `ignore_whitespace`, or
comment nodes with `ignore_comments`; every other node kind is always
included. -/
theorem c2_inclusion_predicate (o : HtmlCompareOptions) (n : Node) :
    should_include_node o n = false ↔
      ((∃ s, n = .text s ∧ (o.ignore_text = true ∨
          (o.ignore_whitespace = true ∧ rustTrim s = ""))) ∨
       (∃ s, n = .comment s ∧ o.ignore_comments = true)) := by
  cases n with
  | text s =>
    cases hit : o.ignore_text with
    | true => simp [should_include_node, hit]
    | false =>
      cases hiw : o.ignore_whitespace with
      | true => simp [should_include_node, hit, hiw, String.isEmpty_iff]
      | false => simp [should_include_node, hit, hiw]
  | comment s =>
    cases hic : o.ignore_comments with
    | true => simp [should_include_node, hic]
    | false => simp [should_include_node, hic]
  | element t a c => simp [should_include_node]
  | processingInstruction => simp [should_include_node]
  | doctype => simp [should_include_node]
  | document => simp [should_include_node]
  | fragment => simp [should_include_node]

/-- C3: at a pair of text children of the ordered walk with `ignore_text`
off, the position passes exactly when the contents are equal — trimmed on
both sides when `ignore_whitespace`, raw otherwise, with internal
whitespace never collapsed — and a mismatch yields the position-indexed
text-content report carrying the processed strings. -/
theorem c3_ordered_text_rule (o : HtmlCompareOptions) (i : Nat) (s t : String)
    (es as : List Node) (h : o.ignore_text = false) :
    (resultOk (compare_ordered_go o i (.text s :: es) (.text t :: as)) = true ↔
      ((if o.ignore_whitespace then rustTrim s = rustTrim t else s = t) ∧
        resultOk (compare_ordered_go o (i + 1) es as) = true)) ∧
    ((if o.ignore_whitespace then rustTrim s ≠ rustTrim t else s ≠ t) →
      compare_ordered_go o i (.text s :: es) (.text t :: as) =
        .error (.textContentMismatch i
          (if o.ignore_whitespace then rustTrim s else s)
          (if o.ignore_whitespace then rustTrim t else t))) := by
  constructor
  · rw [compare_ordered_go_cons]
    simp only [orderedPass, h, Bool.false_or, Bool.and_eq_true]
    cases hiw : o.ignore_whitespace with
    | true => simp [hiw]
    | false => simp [hiw]
  · intro hne
    cases hiw : o.ignore_whitespace with
    | true =>
      rw [hiw] at hne
      simp at hne
      simp [compare_ordered_go, h, hiw, hne]
    | false =>
      rw [hiw] at hne
      simp at hne
      simp [compare_ordered_go, h, hiw, hne]

/-- C3 witness: with default options, two text children differing only in
internal spacing mismatch — repeated spaces are not collapsed. -/
theorem c3_ordered_text_rule_witness :
    defaultOptions.ignore_text = false ∧
    compare_ordered_go defaultOptions 0 [Node.text "Hello   World"]
        [Node.text "Hello World"] =
      .error (.textContentMismatch 0 "Hello   World" "Hello World") := by
  have h := (c3_ordered_text_rule defaultOptions 0 "Hello   World" "Hello World"
    [] [] rfl).2 (by decide)
  have e1 : (if defaultOptions.ignore_whitespace then rustTrim "Hello   World"
      else "Hello   World") = "Hello   World" := by decide
  have e2 : (if defaultOptions.ignore_whitespace then rustTrim "Hello World"
      else "Hello World") = "Hello World" := by decide
  rw [e1, e2] at h
  exact ⟨rfl, h⟩

/-- C4: in unordered matching a comment child matches a comment child
exactly when `ignore_comments` is set (with no content comparison), and
with `ignore_comments` off an expected comment child surviving filtering
always produces the no-matching-node report. -/
theorem c4_unordered_comment_matching (o : HtmlCompareOptions) (c1 c2 : String) :
    nodes_match o (.comment c1) (.comment c2) = o.ignore_comments ∧
    (o.ignore_comments = false → ∀ (es as : List Node) (ms : List Bool),
      compare_unordered_go o (.comment c1 :: es) as ms =
        .error (.noMatchingNode (.comment c1))) := by
  constructor
  · simp [nodes_match]
  · intro hic es as ms
    simp [compare_unordered_go,
      find_unordered_match_none o _ (nodes_match_comment_left o c1 hic) as ms]

/-- C5 (amended): greedy first-fit matching is complete — whenever the two
child lists have equal length and some perfect matching under the per-pair
relation exists, `compare_unordered_nodes` succeeds.  The per-pair relation
is a partial equivalence relation, which rules out the claimed pathological
inputs. -/
theorem c5_greedy_matching_complete (o : HtmlCompareOptions) (es as : List Node)
    (hlen : es.length = as.length) (hm : HasPerfectMatching o es as) :
    compare_unordered_nodes o es as = .ok () := by
  rw [← resultOk_iff_eq_ok]
  exact (compare_unordered_nodes_ok_iff_matching o es as).mpr ⟨hlen, hm⟩

/-- C5 counterexample to the claim as stated: no pair of equal-length child
lists has a perfect matching yet fails the greedy comparison. -/
theorem c5_counterexample :
    (∃ (o : HtmlCompareOptions) (es as : List Node),
      es.length = as.length ∧ HasPerfectMatching o es as ∧
        compare_unordered_nodes o es as ≠ .ok ()) = False := by
  apply eq_false
  rintro ⟨o, es, as, hlen, hm, hne⟩
  apply hne
  rw [← resultOk_iff_eq_ok]
  exact (compare_unordered_nodes_ok_iff_matching o es as).mpr ⟨hlen, hm⟩

/-- C5 witness: a reordered pair of text children has a perfect matching and
greedy matching accepts it. -/
theorem c5_greedy_matching_complete_witness :
    compare_unordered_nodes defaultOptions [Node.text "a", Node.text "b"]
      [Node.text "b", Node.text "a"] = .ok () := by
  refine c5_greedy_matching_complete defaultOptions _ _ rfl
    ⟨[Node.text "a", Node.text "b"],
      List.Perm.swap (Node.text "b") (Node.text "a") [], ?_⟩
  refine List.Forall₂.cons ?_ (List.Forall₂.cons ?_ List.Forall₂.nil)
  · simp [nodes_match, defaultOptions]
  · simp [nodes_match, defaultOptions]

/-- C6 (amended): the structural comparison outcome is a pure function of
the inputs and options; what varies between two calls is only the
enumeration order the two freshly seeded hash sets use inside the rendered
attributes-mismatch message, so the two renderings list the same rendered
pairs, merely permuted (in particular the messages have equal length). -/
theorem c6_report_rendering (eEnum1 eEnum2 aEnum1 aEnum2 : List (String × String))
    (he : eEnum1.Perm eEnum2) (ha : aEnum1.Perm aEnum2) :
    (renderAttrSetList eEnum1).Perm (renderAttrSetList eEnum2) ∧
    (attributes_mismatch_message eEnum1 aEnum1).length =
      (attributes_mismatch_message eEnum2 aEnum2).length := by
  constructor
  · exact he.map renderAttrPair
  · simp only [attributes_mismatch_message, renderAttrSet, renderAttrSetList,
      String.length_append]
    rw [joinCommaSep_length_perm (he.map renderAttrPair),
      joinCommaSep_length_perm (ha.map renderAttrPair)]

theorem c6_report_rendering_witness :
    [(("a" : String), ("1" : String)), ("b", "2")].Perm [("b", "2"), ("a", "1")] ∧
    (renderAttrSetList [(("a" : String), ("1" : String)), ("b", "2")]).Perm
      (renderAttrSetList [("b", "2"), ("a", "1")]) ∧
    (attributes_mismatch_message [(("a" : String), ("1" : String)), ("b", "2")]
        [("c", "3")]).length =
      (attributes_mismatch_message [("b", "2"), ("a", "1")] [("c", "3")]).length := by
  have hp : [(("a" : String), ("1" : String)), ("b", "2")].Perm
      [("b", "2"), ("a", "1")] := List.Perm.swap ("b", "2") ("a", "1") []
  have h := c6_report_rendering _ _ _ _ hp (List.Perm.refl [(("c" : String), ("3" : String))])
  exact ⟨hp, h.1, h.2⟩

/-- C6 counterexample to the claim as stated: two enumeration orders of the
same attribute set render different message strings, while the structural
report of `compare_attributes` carries the sets themselves. -/
theorem c6_counterexample :
    List.Perm [(("b" : String), ("2" : String)), ("a", "1")] [("a", "1"), ("b", "2")] ∧
    (attributes_mismatch_message [(("a" : String), ("1" : String)), ("b", "2")]
        [("c", "3")] =
      attributes_mismatch_message [("b", "2"), ("a", "1")] [("c", "3")]) = False ∧
    compare_attributes defaultOptions [("a", "1"), ("b", "2")] [("c", "3")] =
      .error (.attributesMismatch [("a", "1"), ("b", "2")] [("c", "3")]) := by
  refine ⟨List.Perm.swap ("a", "1") ("b", "2") [], eq_false (by decide), by decide⟩

/-- C7 (amended): `compare(s, s)` succeeds for every parsed tree (whose
nodes are elements, text and comments) and every options value in which the
mode is ordered or comments are ignored.  (With `ignore_sibling_order` and
`ignore_comments = false`, a comment child matches nothing in unordered
mode, so reflexivity fails — see the counterexample.) -/
theorem c7_reflexivity (o : HtmlCompareOptions) (root : ElementNode)
    (hgood : goodNodes root.children = true)
    (hmode : o.ignore_sibling_order = false ∨ o.ignore_comments = true) :
    compare o root root = .ok true := by
  have h := compare_element_refs_refl o hmode (nodesSize root.children)
    root.children (le_refl _) hgood root.tag root.attrs
  rw [resultOk_iff_eq_ok] at h
  simp [compare, h, Except.map]

theorem c7_reflexivity_witness :
    compare
      { ignore_whitespace := true, ignore_attributes := false,
        ignored_attributes := [], ignore_text := false, ignore_comments := true,
        ignore_sibling_order := true }
      ⟨"html", [("lang", "en")], [Node.text "x", Node.element "p" [] [Node.text "y"]]⟩
      ⟨"html", [("lang", "en")], [Node.text "x", Node.element "p" [] [Node.text "y"]]⟩ =
      .ok true := by
  refine c7_reflexivity _ _ ?_ (Or.inr rfl)
  simp [goodNode, goodNodes]

/-- C7 counterexample to the claim as stated: with `ignore_sibling_order`
set and `ignore_comments` off, a tree containing a comment child fails
comparison against itself. -/
theorem c7_counterexample :
    compare
      { ignore_whitespace := true, ignore_attributes := false,
        ignored_attributes := [], ignore_text := false, ignore_comments := false,
        ignore_sibling_order := true }
      ⟨"html", [], [Node.comment " c "]⟩ ⟨"html", [], [Node.comment " c "]⟩ =
      .error (.noMatchingNode (Node.comment " c ")) := by
  simp +decide [compare, compare_element_refs, compare_attributes, attrSetEq,
    filteredAttrs, compare_unordered_nodes, compare_unordered_go,
    find_unordered_match, nodes_match, should_include_node, List.filter_cons,
    List.filter_nil, Except.map]

/-- C8: in both modes, unequal inclusion-filtered child counts of an
element pair fail with the child-count report carrying both lengths, before
any per-child comparison. -/
theorem c8_child_count_precondition (o : HtmlCompareOptions)
    (t1 : String) (a1 : List (String × String)) (c1 : List Node)
    (t2 : String) (a2 : List (String × String)) (c2 : List Node)
    (htag : t1 = t2)
    (hattrs : o.ignore_attributes = true ∨ compare_attributes o a1 a2 = .ok ())
    (hlen : (c1.filter (should_include_node o)).length ≠
      (c2.filter (should_include_node o)).length) :
    compare_element_refs o t1 a1 c1 t2 a2 c2 =
      .error (.childCountMismatch (c1.filter (should_include_node o)).length
        (c2.filter (should_include_node o)).length) := by
  subst htag
  rcases hattrs with h | h
  · cases hsib : o.ignore_sibling_order <;>
      simp [compare_element_refs, h, hsib, compare_unordered_nodes,
        compare_ordered_nodes, hlen]
  · cases hia : o.ignore_attributes <;> cases hsib : o.ignore_sibling_order <;>
      simp [compare_element_refs, h, hia, hsib, compare_unordered_nodes,
        compare_ordered_nodes, hlen]

theorem c8_child_count_precondition_witness :
    compare_element_refs defaultOptions "div" [] [Node.text "x"] "div" [] [] =
      .error (.childCountMismatch 1 0) := by
  have h := c8_child_count_precondition defaultOptions "div" [] [Node.text "x"]
    "div" [] [] rfl (Or.inr (by decide)) (by decide)
  have e1 : (List.filter (should_include_node defaultOptions)
      [Node.text "x"]).length = 1 := by decide
  have e2 : (List.filter (should_include_node defaultOptions)
      ([] : List Node)).length = 0 := by decide
  rw [e1, e2] at h
  exact h

/-- C9: `compare_attributes` succeeds exactly when the two filtered
attribute collections are equal as sets of (name, value) pairs — insensitive
to order and duplicates — and any difference reports both filtered
collections. -/
theorem c9_attribute_set_semantics (o : HtmlCompareOptions)
    (ea aa : List (String × String)) :
    (compare_attributes o ea aa = .ok () ↔
      ∀ p : String × String, p ∈ filteredAttrs o ea ↔ p ∈ filteredAttrs o aa) ∧
    ((∃ p : String × String,
        ¬ (p ∈ filteredAttrs o ea ↔ p ∈ filteredAttrs o aa)) →
      compare_attributes o ea aa =
        .error (.attributesMismatch (filteredAttrs o ea) (filteredAttrs o aa))) := by
  constructor
  · rw [compare_attributes_ok_iff, attrSetEq_iff]
  · rintro ⟨p, hp⟩
    apply compare_attributes_error
    by_cases hb : attrSetEq (filteredAttrs o ea) (filteredAttrs o aa) = true
    · exact absurd ((attrSetEq_iff _ _).mp hb p) hp
    · simpa using hb

/-- C10: the public `compare` never returns `Ok(false)` — every successful
comparison carries exactly `true`, so the boolean payload adds no
information beyond success. -/
theorem c10_ok_payload_true (o : HtmlCompareOptions) (a b : ElementNode)
    (r : Bool) (h : compare o a b = .ok r) : r = true := by
  simp only [compare] at h
  cases hc : compare_element_refs o a.tag a.attrs a.children
      b.tag b.attrs b.children with
  | ok u =>
    rw [hc] at h
    simp only [Except.map] at h
    cases h
    rfl
  | error e =>
    rw [hc] at h
    simp [Except.map] at h

theorem c10_ok_payload_true_witness :
    compare defaultOptions ⟨"div", [], []⟩ ⟨"div", [], []⟩ = .ok true ∧
    (true : Bool) = true := by
  have hok : compare defaultOptions ⟨"div", [], []⟩ ⟨"div", [], []⟩ = .ok true := by
    simp +decide [compare, compare_element_refs, compare_attributes, attrSetEq,
      filteredAttrs, compare_ordered_nodes, compare_ordered_go, defaultOptions,
      Except.map]
  exact ⟨hok, c10_ok_payload_true defaultOptions _ _ true hok⟩

end HtmlCompare
